import Mathlib

/-!
Verification of the swarmalator engine (`src/wasm-swarmalators/src/lib.rs`).

The Rust source is shallowly embedded over the real numbers: every `f64`
becomes an `ℝ`, every `Vec<f64>` a `List ℝ`, `Option<Vec<f64>>` an
`Option (List ℝ)`.  Vector indexing (which panics out of bounds in Rust,
but is always in bounds under the documented length invariants) is
modelled by `List.getD` with default `0`; in-place element assignment by
`List.set`.  The Rust float remainder `%` is modelled by truncated
division (`fmod` below).  Panics of the constructor and of the
length-checked setters are modelled by `Except` error returns.
-/

noncomputable section

namespace Swarm

/-- Indexing a `Vec<f64>`: `l[i]`, total with default `0`.  Under the
length invariants of the source every access is in bounds, so the
default is never observed in the claims proved below. -/
def getf (l : List ℝ) (i : ℕ) : ℝ := l.getD i 0

/-- Truncation toward zero of a real number, as an integer; this is how
Rust truncates in the `f64` remainder operation. -/
def rtrunc (x : ℝ) : ℤ := if 0 ≤ x then ⌊x⌋ else ⌈x⌉

/-- Rust `%` on `f64` (truncated remainder): `x - y * trunc (x / y)`.
The sign of the result follows the sign of the dividend. -/
def fmod (x y : ℝ) : ℝ := x - y * (rtrunc (x / y) : ℝ)

/-- The state of the engine: the fields of `struct Swarmalator`
(lib.rs lines 37-50), in source order. -/
@[ext]
structure Swarmalator where
  agents : ℕ
  A : ℝ
  B : ℝ
  K : ℝ
  J : ℝ
  target : Option (List ℝ)
  natural_frequencies : List ℝ
  chiral : Option (List ℝ)
  velocities : List ℝ
  phases : List ℝ
  delta_phases : List ℝ
  positions : List ℝ

/-- Length-mismatch failure of the constructor or of a length-checked
setter, naming the offending field (the Rust code panics with a message
naming the field). -/
inductive SwarmError where
  | lengthMismatch (field : String)
deriving DecidableEq

/-- Constructor `Swarmalator::new` (lib.rs lines 69-120): checks the
lengths of `positions`, `phases` and `natural_frequencies` (and no other
field), then builds the state with zero velocities and zero phase
deltas, `A = 1`, `B = 1`. -/
def Swarmalator.new (agents : ℕ) (positions phases natural_frequencies : List ℝ)
    (K J : ℝ) (chiral target : Option (List ℝ)) : Except SwarmError Swarmalator :=
  if positions.length ≠ agents * 2 then
    .error (.lengthMismatch "positions")
  else if phases.length ≠ agents then
    .error (.lengthMismatch "phases")
  else if natural_frequencies.length ≠ agents then
    .error (.lengthMismatch "natural_frequencies")
  else
    .ok { agents := agents, A := 1, B := 1, K := K, J := J, target := target,
          natural_frequencies := natural_frequencies, chiral := chiral,
          velocities := List.replicate (agents * 2) 0, phases := phases,
          delta_phases := List.replicate agents 0, positions := positions }

/-- Euclidean distance between agents `i` and `j` (lib.rs lines
163-165): `sqrt ((xᵢ - xⱼ)² + (yᵢ - yⱼ)²)` on the interleaved position
list. -/
def distPair (pos : List ℝ) (i j : ℕ) : ℝ :=
  Real.sqrt ((getf pos (2 * i) - getf pos (2 * j)) ^ 2 +
    (getf pos (2 * i + 1) - getf pos (2 * j + 1)) ^ 2)

/-- `freq_diff_xy` (lib.rs lines 168-180): zero unless chirality is
present, in which case it is `(π/2) * |nf j / |nf j| - nf i / |nf i||`
(the `x / |x|` sign idiom of the source). -/
def freqDiffXY (chiral : Option (List ℝ)) (nf : List ℝ) (i j : ℕ) : ℝ :=
  if chiral.isSome then
    (Real.pi / 2) * abs (getf nf j / abs (getf nf j) - getf nf i / abs (getf nf i))
  else 0

/-- `freq_diff_phase` (lib.rs line 179): half of `freq_diff_xy`. -/
def freqDiffPhase (chiral : Option (List ℝ)) (nf : List ℝ) (i j : ℕ) : ℝ :=
  freqDiffXY chiral nf i j / 2

/-- `velocity_contribution_x` (lib.rs lines 182-185):
`((xⱼ - xᵢ) / dist) * (A + Jᵢ * cos (θⱼ - θᵢ - freq_diff_xy)) -
 B * (xⱼ - xᵢ) / dist²`. -/
def velContribX (pos phases : List ℝ) (A B Ji : ℝ) (chiral : Option (List ℝ))
    (nf : List ℝ) (i j : ℕ) : ℝ :=
  ((getf pos (2 * j) - getf pos (2 * i)) / distPair pos i j) *
      (A + Ji * Real.cos (getf phases j - getf phases i - freqDiffXY chiral nf i j)) -
    B * (getf pos (2 * j) - getf pos (2 * i)) / (distPair pos i j) ^ 2

/-- `velocity_contribution_y` (lib.rs lines 187-191): as
`velContribX` on the y coordinates. -/
def velContribY (pos phases : List ℝ) (A B Ji : ℝ) (chiral : Option (List ℝ))
    (nf : List ℝ) (i j : ℕ) : ℝ :=
  ((getf pos (2 * j + 1) - getf pos (2 * i + 1)) / distPair pos i j) *
      (A + Ji * Real.cos (getf phases j - getf phases i - freqDiffXY chiral nf i j)) -
    B * (getf pos (2 * j + 1) - getf pos (2 * i + 1)) / (distPair pos i j) ^ 2

/-- Per-pair phase increment (lib.rs lines 196-198):
`(K / agents) * sin (θⱼ - θᵢ - freq_diff_phase) / dist`. -/
def phaseContrib (pos phases : List ℝ) (K : ℝ) (n : ℕ) (chiral : Option (List ℝ))
    (nf : List ℝ) (i j : ℕ) : ℝ :=
  (K / (n : ℝ)) * Real.sin (getf phases j - getf phases i - freqDiffPhase chiral nf i j) /
    distPair pos i j

/-- One iteration of the inner `for j` loop of `update` (lib.rs lines
158-199) for fixed agent `i`: skip `j = i`, otherwise accumulate the two
velocity contributions (scaled by `1 / agents`) and the phase
contribution into the running state. -/
def pairStep (Js : List ℝ) (i : ℕ) (acc : Swarmalator) (j : ℕ) : Swarmalator :=
  if i = j then acc
  else
    let cx := velContribX acc.positions acc.phases acc.A acc.B (getf Js i)
      acc.chiral acc.natural_frequencies i j
    let cy := velContribY acc.positions acc.phases acc.A acc.B (getf Js i)
      acc.chiral acc.natural_frequencies i j
    let v1 := acc.velocities.set (2 * i)
      (getf acc.velocities (2 * i) + (1 / (acc.agents : ℝ)) * cx)
    let v2 := v1.set (2 * i + 1)
      (getf v1 (2 * i + 1) + (1 / (acc.agents : ℝ)) * cy)
    let d1 := acc.delta_phases.set i
      (getf acc.delta_phases i + phaseContrib acc.positions acc.phases acc.K
        acc.agents acc.chiral acc.natural_frequencies i j)
    { acc with velocities := v2, delta_phases := d1 }

/-- Body of the outer `for i` loop of the first pass of `update`
(lib.rs lines 146-200): write the chirality base velocity (or zero),
reset the phase delta to the natural frequency, then run the inner
`for j` loop. -/
def agentStep (Js : List ℝ) (acc : Swarmalator) (i : ℕ) : Swarmalator :=
  let v1 :=
    match acc.chiral with
    | some ch =>
        (acc.velocities.set (2 * i)
            (getf ch i * Real.cos (getf acc.phases i + Real.pi / 2))).set (2 * i + 1)
          (getf ch i * Real.sin (getf acc.phases i + Real.pi / 2))
    | none => (acc.velocities.set (2 * i) 0).set (2 * i + 1) 0
  let d1 := acc.delta_phases.set i (getf acc.natural_frequencies i)
  let acc1 := { acc with velocities := v1, delta_phases := d1 }
  (List.range acc1.agents).foldl (pairStep Js i) acc1

/-- Distances of the agents to the target (lib.rs lines 131-136). -/
def distsToTarget (s : Swarmalator) (t : List ℝ) : List ℝ :=
  (List.range s.agents).map fun i =>
    Real.sqrt ((getf s.positions (2 * i) - getf t 0) ^ 2 +
      (getf s.positions (2 * i + 1) - getf t 1) ^ 2)

/-- Fold maximum of the target distances (lib.rs line 138).  The Rust
code seeds the fold with `0.0 / 0.0 = NaN`; since `f64::max` returns its
non-NaN operand, the first iteration replaces the seed by the first
element, so over the reals the fold is seeded with the head. -/
def listMax : List ℝ → ℝ
  | [] => 0
  | x :: xs => xs.foldl (fun m v => max v m) x

/-- Fold minimum of the target distances (lib.rs line 139), with the
same NaN-seed convention as `listMax`. -/
def listMin : List ℝ → ℝ
  | [] => 0
  | x :: xs => xs.foldl (fun m v => min v m) x

/-- The per-agent coupling strengths `Js` of `update` (lib.rs lines
127-144): the global `J` replicated, overwritten for every agent by
`A * |dist i - min| / (max - min)` when a target is present. -/
def computeJs (s : Swarmalator) : List ℝ :=
  match s.target with
  | none => List.replicate s.agents s.J
  | some t =>
      let dists := distsToTarget s t
      (List.range s.agents).foldl
        (fun js i =>
          js.set i (s.A * |getf dists i - listMin dists| / (listMax dists - listMin dists)))
        (List.replicate s.agents s.J)

/-- One iteration of the integration loop of `update` (lib.rs lines
202-208): add `delta_phase * dt` to the phase, reduce it mod `2π` with
the float remainder, and advance both position coordinates by
`velocity * dt`. -/
def integrateStep (dt : ℝ) (acc : Swarmalator) (i : ℕ) : Swarmalator :=
  let p1 := acc.phases.set i (getf acc.phases i + getf acc.delta_phases i * dt)
  let p2 := p1.set i (fmod (getf p1 i) (2 * Real.pi))
  let q1 := acc.positions.set (2 * i)
    (getf acc.positions (2 * i) + getf acc.velocities (2 * i) * dt)
  let q2 := q1.set (2 * i + 1)
    (getf q1 (2 * i + 1) + getf acc.velocities (2 * i + 1) * dt)
  { acc with phases := p2, positions := q2 }

/-- `Swarmalator::update` (lib.rs lines 126-209): compute the coupling
strengths, run the pairwise pass over all agents, then the integration
pass. -/
def update (s : Swarmalator) (dt : ℝ) : Swarmalator :=
  let Js := computeJs s
  let s1 := (List.range s.agents).foldl (agentStep Js) s
  (List.range s1.agents).foldl (integrateStep dt) s1

/-- Setter `set_target` (lib.rs lines 231-237): checks the length is 2,
panics (modelled as an error) otherwise. -/
def Swarmalator.set_target (s : Swarmalator) (target : List ℝ) :
    Except SwarmError Swarmalator :=
  if target.length ≠ 2 then .error (.lengthMismatch "target")
  else .ok { s with target := some target }

/-- Setter `set_K` (lib.rs lines 242-244). -/
def Swarmalator.set_K (s : Swarmalator) (K : ℝ) : Swarmalator := { s with K := K }

/-- Setter `set_J` (lib.rs lines 249-251). -/
def Swarmalator.set_J (s : Swarmalator) (J : ℝ) : Swarmalator := { s with J := J }

/-- Setter `set_chiral` (lib.rs lines 256-258): replaces the field with
no validation whatsoever. -/
def Swarmalator.set_chiral (s : Swarmalator) (chiral : Option (List ℝ)) : Swarmalator :=
  { s with chiral := chiral }

/-- Setter `set_natural_frequencies` (lib.rs lines 265-271): checks the
length equals `agents`. -/
def Swarmalator.set_natural_frequencies (s : Swarmalator) (natural_frequencies : List ℝ) :
    Except SwarmError Swarmalator :=
  if natural_frequencies.length ≠ s.agents then
    .error (.lengthMismatch "natural_frequencies")
  else .ok { s with natural_frequencies := natural_frequencies }

/-- Setter `set_phases` (lib.rs lines 279-285): checks the length equals
`agents`. -/
def Swarmalator.set_phases (s : Swarmalator) (phases : List ℝ) :
    Except SwarmError Swarmalator :=
  if phases.length ≠ s.agents then .error (.lengthMismatch "phases")
  else .ok { s with phases := phases }

/-! ### Basic facts about `getf`, `List.set` and `fmod` -/

lemma getf_set_self {l : List ℝ} {i : ℕ} (v : ℝ) (h : i < l.length) :
    getf (l.set i v) i = v := by
  rw [getf, List.getD_eq_getElem?_getD, List.getElem?_set_self (by simpa using h)]
  simp

lemma getf_set_ne {i k : ℕ} (l : List ℝ) (v : ℝ) (h : i ≠ k) :
    getf (l.set i v) k = getf l k := by
  rw [getf, getf, List.getD_eq_getElem?_getD, List.getElem?_set_ne h,
    List.getD_eq_getElem?_getD]

lemma getf_replicate {n i : ℕ} (x : ℝ) (h : i < n) :
    getf (List.replicate n x) i = x := by
  rw [getf, List.getD_eq_getElem?_getD, List.getElem?_replicate]
  simp [h]

lemma getf_mem {l : List ℝ} {i : ℕ} (h : i < l.length) : getf l i ∈ l := by
  rw [getf, List.getD_eq_getElem l 0 h]
  exact List.getElem_mem h

lemma getf_eq_getElem {l : List ℝ} {i : ℕ} (h : i < l.length) : getf l i = l[i] :=
  List.getD_eq_getElem l 0 h

/-- The float remainder by a positive modulus lies strictly between
`-y` and `y`. -/
lemma fmod_bounds (x : ℝ) {y : ℝ} (hy : 0 < y) : -y < fmod x y ∧ fmod x y < y := by
  have hy' : y ≠ 0 := ne_of_gt hy
  rcases le_or_lt 0 x with hx | hx
  · have hz : 0 ≤ x / y := div_nonneg hx (le_of_lt hy)
    have : fmod x y = y * Int.fract (x / y) := by
      rw [fmod, rtrunc, if_pos hz, Int.fract]
      field_simp
    constructor
    · rw [this]
      have h0 : 0 ≤ y * Int.fract (x / y) :=
        mul_nonneg (le_of_lt hy) (Int.fract_nonneg _)
      linarith
    · rw [this]
      have h1 : Int.fract (x / y) < 1 := Int.fract_lt_one _
      calc y * Int.fract (x / y) < y * 1 := by
            exact mul_lt_mul_of_pos_left h1 hy
        _ = y := mul_one y
  · have hz : ¬ 0 ≤ x / y := by
      rw [not_le]
      exact div_neg_of_neg_of_pos hx hy
    have hrepr : fmod x y = y * (x / y - (⌈x / y⌉ : ℝ)) := by
      rw [fmod, rtrunc, if_neg hz]
      field_simp
    have hc1 : x / y ≤ (⌈x / y⌉ : ℝ) := Int.le_ceil _
    have hc2 : (⌈x / y⌉ : ℝ) < x / y + 1 := Int.ceil_lt_add_one _
    constructor
    · rw [hrepr]
      have : (-1 : ℝ) < x / y - (⌈x / y⌉ : ℝ) := by linarith
      nlinarith
    · rw [hrepr]
      have h0 : x / y - (⌈x / y⌉ : ℝ) ≤ 0 := by linarith
      nlinarith

/-- A value already strictly inside `(-y, y)` is a fixed point of the
float remainder. -/
lemma fmod_eq_self {x y : ℝ} (hy : 0 < y) (h1 : -y < x) (h2 : x < y) :
    fmod x y = x := by
  rcases le_or_lt 0 x with hx | hx
  · have hz : 0 ≤ x / y := div_nonneg hx (le_of_lt hy)
    have hfl : ⌊x / y⌋ = 0 := by
      rw [Int.floor_eq_zero_iff]
      constructor
      · exact hz
      · rw [div_lt_one hy]
        exact h2
    rw [fmod, rtrunc, if_pos hz, hfl]
    simp
  · have hz : ¬ 0 ≤ x / y := by
      rw [not_le]
      exact div_neg_of_neg_of_pos hx hy
    have hcl : ⌈x / y⌉ = 0 := by
      rw [Int.ceil_eq_zero_iff]
      constructor
      · rw [lt_div_iff₀ hy]
        linarith
      · exact le_of_lt (div_neg_of_neg_of_pos hx hy)
    rw [fmod, rtrunc, if_neg hz, hcl]
    simp

/-! ### The inner pairwise loop: frame and accumulation lemmas -/

@[simp] lemma pairStep_agents (Js : List ℝ) (i j : ℕ) (acc : Swarmalator) :
    (pairStep Js i acc j).agents = acc.agents := by
  by_cases h : i = j <;> simp [pairStep, h]

@[simp] lemma pairStep_A (Js : List ℝ) (i j : ℕ) (acc : Swarmalator) :
    (pairStep Js i acc j).A = acc.A := by
  by_cases h : i = j <;> simp [pairStep, h]

@[simp] lemma pairStep_B (Js : List ℝ) (i j : ℕ) (acc : Swarmalator) :
    (pairStep Js i acc j).B = acc.B := by
  by_cases h : i = j <;> simp [pairStep, h]

@[simp] lemma pairStep_K (Js : List ℝ) (i j : ℕ) (acc : Swarmalator) :
    (pairStep Js i acc j).K = acc.K := by
  by_cases h : i = j <;> simp [pairStep, h]

@[simp] lemma pairStep_J (Js : List ℝ) (i j : ℕ) (acc : Swarmalator) :
    (pairStep Js i acc j).J = acc.J := by
  by_cases h : i = j <;> simp [pairStep, h]

@[simp] lemma pairStep_target (Js : List ℝ) (i j : ℕ) (acc : Swarmalator) :
    (pairStep Js i acc j).target = acc.target := by
  by_cases h : i = j <;> simp [pairStep, h]

@[simp] lemma pairStep_nf (Js : List ℝ) (i j : ℕ) (acc : Swarmalator) :
    (pairStep Js i acc j).natural_frequencies = acc.natural_frequencies := by
  by_cases h : i = j <;> simp [pairStep, h]

@[simp] lemma pairStep_chiral (Js : List ℝ) (i j : ℕ) (acc : Swarmalator) :
    (pairStep Js i acc j).chiral = acc.chiral := by
  by_cases h : i = j <;> simp [pairStep, h]

@[simp] lemma pairStep_phases (Js : List ℝ) (i j : ℕ) (acc : Swarmalator) :
    (pairStep Js i acc j).phases = acc.phases := by
  by_cases h : i = j <;> simp [pairStep, h]

@[simp] lemma pairStep_positions (Js : List ℝ) (i j : ℕ) (acc : Swarmalator) :
    (pairStep Js i acc j).positions = acc.positions := by
  by_cases h : i = j <;> simp [pairStep, h]

@[simp] lemma pairStep_velocities_length (Js : List ℝ) (i j : ℕ) (acc : Swarmalator) :
    (pairStep Js i acc j).velocities.length = acc.velocities.length := by
  by_cases h : i = j <;> simp [pairStep, h]

@[simp] lemma pairStep_delta_length (Js : List ℝ) (i j : ℕ) (acc : Swarmalator) :
    (pairStep Js i acc j).delta_phases.length = acc.delta_phases.length := by
  by_cases h : i = j <;> simp [pairStep, h]

lemma pairStep_delta_self (Js : List ℝ) {i j : ℕ} (acc : Swarmalator)
    (h : i < acc.delta_phases.length) (hij : ¬ i = j) :
    getf (pairStep Js i acc j).delta_phases i
      = getf acc.delta_phases i + phaseContrib acc.positions acc.phases acc.K
          acc.agents acc.chiral acc.natural_frequencies i j := by
  simp only [pairStep, if_neg hij]
  exact getf_set_self _ h

lemma pairStep_delta_other (Js : List ℝ) {i j k : ℕ} (acc : Swarmalator)
    (hk : i ≠ k) :
    getf (pairStep Js i acc j).delta_phases k = getf acc.delta_phases k := by
  by_cases hij : i = j
  · simp [pairStep, hij]
  · simp only [pairStep, if_neg hij]
    exact getf_set_ne _ _ hk

lemma pairStep_vel_x (Js : List ℝ) {i j : ℕ} (acc : Swarmalator)
    (h : 2 * i < acc.velocities.length) (hij : ¬ i = j) :
    getf (pairStep Js i acc j).velocities (2 * i)
      = getf acc.velocities (2 * i) + (1 / (acc.agents : ℝ)) *
          velContribX acc.positions acc.phases acc.A acc.B (getf Js i)
            acc.chiral acc.natural_frequencies i j := by
  simp only [pairStep, if_neg hij]
  rw [getf_set_ne _ _ (by omega : 2 * i + 1 ≠ 2 * i)]
  exact getf_set_self _ h

lemma pairStep_vel_y (Js : List ℝ) {i j : ℕ} (acc : Swarmalator)
    (h : 2 * i + 1 < acc.velocities.length) (hij : ¬ i = j) :
    getf (pairStep Js i acc j).velocities (2 * i + 1)
      = getf acc.velocities (2 * i + 1) + (1 / (acc.agents : ℝ)) *
          velContribY acc.positions acc.phases acc.A acc.B (getf Js i)
            acc.chiral acc.natural_frequencies i j := by
  simp only [pairStep, if_neg hij]
  rw [getf_set_self _ (by simpa using h),
    getf_set_ne _ _ (by omega : 2 * i ≠ 2 * i + 1)]

lemma pairStep_vel_other (Js : List ℝ) {i j k : ℕ} (acc : Swarmalator)
    (hk1 : 2 * i ≠ k) (hk2 : 2 * i + 1 ≠ k) :
    getf (pairStep Js i acc j).velocities k = getf acc.velocities k := by
  by_cases hij : i = j
  · simp [pairStep, hij]
  · simp only [pairStep, if_neg hij]
    rw [getf_set_ne _ _ hk2, getf_set_ne _ _ hk1]

lemma foldl_pairStep_delta (Js : List ℝ) (i : ℕ) (L : List ℕ) :
    ∀ acc : Swarmalator, i < acc.delta_phases.length →
      getf (L.foldl (pairStep Js i) acc).delta_phases i
        = getf acc.delta_phases i
          + ((L.filter fun j => ¬ i = j).map
              (fun j => phaseContrib acc.positions acc.phases acc.K acc.agents
                acc.chiral acc.natural_frequencies i j)).sum := by
  induction L with
  | nil => intro acc h; simp
  | cons j t ih =>
    intro acc h
    rw [List.foldl_cons]
    by_cases hij : i = j
    · rw [show pairStep Js i acc j = acc from by simp [pairStep, hij]]
      rw [ih acc h, List.filter_cons]
      simp [hij]
    · rw [ih (pairStep Js i acc j) (by simpa using h)]
      simp only [pairStep_positions, pairStep_phases, pairStep_K, pairStep_agents,
        pairStep_chiral, pairStep_nf]
      rw [pairStep_delta_self Js acc h hij, List.filter_cons,
        if_pos (by simp [hij]), List.map_cons, List.sum_cons]
      ring

lemma foldl_pairStep_delta_other (Js : List ℝ) (i k : ℕ) (hk : i ≠ k) (L : List ℕ) :
    ∀ acc : Swarmalator,
      getf (L.foldl (pairStep Js i) acc).delta_phases k = getf acc.delta_phases k := by
  induction L with
  | nil => intro acc; rfl
  | cons j t ih =>
    intro acc
    rw [List.foldl_cons, ih, pairStep_delta_other Js acc hk]

lemma foldl_pairStep_vel_x (Js : List ℝ) (i : ℕ) (L : List ℕ) :
    ∀ acc : Swarmalator, 2 * i < acc.velocities.length →
      getf (L.foldl (pairStep Js i) acc).velocities (2 * i)
        = getf acc.velocities (2 * i)
          + ((L.filter fun j => ¬ i = j).map
              (fun j => (1 / (acc.agents : ℝ)) *
                velContribX acc.positions acc.phases acc.A acc.B (getf Js i)
                  acc.chiral acc.natural_frequencies i j)).sum := by
  induction L with
  | nil => intro acc h; simp
  | cons j t ih =>
    intro acc h
    rw [List.foldl_cons]
    by_cases hij : i = j
    · rw [show pairStep Js i acc j = acc from by simp [pairStep, hij]]
      rw [ih acc h, List.filter_cons]
      simp [hij]
    · rw [ih (pairStep Js i acc j) (by simpa using h)]
      simp only [pairStep_positions, pairStep_phases, pairStep_A, pairStep_B,
        pairStep_agents, pairStep_chiral, pairStep_nf]
      rw [pairStep_vel_x Js acc h hij, List.filter_cons,
        if_pos (by simp [hij]), List.map_cons, List.sum_cons]
      ring

lemma foldl_pairStep_vel_y (Js : List ℝ) (i : ℕ) (L : List ℕ) :
    ∀ acc : Swarmalator, 2 * i + 1 < acc.velocities.length →
      getf (L.foldl (pairStep Js i) acc).velocities (2 * i + 1)
        = getf acc.velocities (2 * i + 1)
          + ((L.filter fun j => ¬ i = j).map
              (fun j => (1 / (acc.agents : ℝ)) *
                velContribY acc.positions acc.phases acc.A acc.B (getf Js i)
                  acc.chiral acc.natural_frequencies i j)).sum := by
  induction L with
  | nil => intro acc h; simp
  | cons j t ih =>
    intro acc h
    rw [List.foldl_cons]
    by_cases hij : i = j
    · rw [show pairStep Js i acc j = acc from by simp [pairStep, hij]]
      rw [ih acc h, List.filter_cons]
      simp [hij]
    · rw [ih (pairStep Js i acc j) (by simpa using h)]
      simp only [pairStep_positions, pairStep_phases, pairStep_A, pairStep_B,
        pairStep_agents, pairStep_chiral, pairStep_nf]
      rw [pairStep_vel_y Js acc h hij, List.filter_cons,
        if_pos (by simp [hij]), List.map_cons, List.sum_cons]
      ring

lemma foldl_pairStep_vel_other (Js : List ℝ) (i k : ℕ)
    (hk1 : 2 * i ≠ k) (hk2 : 2 * i + 1 ≠ k) (L : List ℕ) :
    ∀ acc : Swarmalator,
      getf (L.foldl (pairStep Js i) acc).velocities k = getf acc.velocities k := by
  induction L with
  | nil => intro acc; rfl
  | cons j t ih =>
    intro acc
    rw [List.foldl_cons, ih, pairStep_vel_other Js acc hk1 hk2]

/-! ### The outer per-agent loop -/

lemma foldl_pairStep_agents (Js : List ℝ) (i : ℕ) (L : List ℕ) (acc : Swarmalator) :
    (L.foldl (pairStep Js i) acc).agents = acc.agents := by
  induction L generalizing acc with
  | nil => rfl
  | cons j t ih => rw [List.foldl_cons, ih, pairStep_agents]

lemma foldl_pairStep_A (Js : List ℝ) (i : ℕ) (L : List ℕ) (acc : Swarmalator) :
    (L.foldl (pairStep Js i) acc).A = acc.A := by
  induction L generalizing acc with
  | nil => rfl
  | cons j t ih => rw [List.foldl_cons, ih, pairStep_A]

lemma foldl_pairStep_B (Js : List ℝ) (i : ℕ) (L : List ℕ) (acc : Swarmalator) :
    (L.foldl (pairStep Js i) acc).B = acc.B := by
  induction L generalizing acc with
  | nil => rfl
  | cons j t ih => rw [List.foldl_cons, ih, pairStep_B]

lemma foldl_pairStep_K (Js : List ℝ) (i : ℕ) (L : List ℕ) (acc : Swarmalator) :
    (L.foldl (pairStep Js i) acc).K = acc.K := by
  induction L generalizing acc with
  | nil => rfl
  | cons j t ih => rw [List.foldl_cons, ih, pairStep_K]

lemma foldl_pairStep_J (Js : List ℝ) (i : ℕ) (L : List ℕ) (acc : Swarmalator) :
    (L.foldl (pairStep Js i) acc).J = acc.J := by
  induction L generalizing acc with
  | nil => rfl
  | cons j t ih => rw [List.foldl_cons, ih, pairStep_J]

lemma foldl_pairStep_target (Js : List ℝ) (i : ℕ) (L : List ℕ) (acc : Swarmalator) :
    (L.foldl (pairStep Js i) acc).target = acc.target := by
  induction L generalizing acc with
  | nil => rfl
  | cons j t ih => rw [List.foldl_cons, ih, pairStep_target]

lemma foldl_pairStep_nf (Js : List ℝ) (i : ℕ) (L : List ℕ) (acc : Swarmalator) :
    (L.foldl (pairStep Js i) acc).natural_frequencies = acc.natural_frequencies := by
  induction L generalizing acc with
  | nil => rfl
  | cons j t ih => rw [List.foldl_cons, ih, pairStep_nf]

lemma foldl_pairStep_chiral (Js : List ℝ) (i : ℕ) (L : List ℕ) (acc : Swarmalator) :
    (L.foldl (pairStep Js i) acc).chiral = acc.chiral := by
  induction L generalizing acc with
  | nil => rfl
  | cons j t ih => rw [List.foldl_cons, ih, pairStep_chiral]

lemma foldl_pairStep_phases (Js : List ℝ) (i : ℕ) (L : List ℕ) (acc : Swarmalator) :
    (L.foldl (pairStep Js i) acc).phases = acc.phases := by
  induction L generalizing acc with
  | nil => rfl
  | cons j t ih => rw [List.foldl_cons, ih, pairStep_phases]

lemma foldl_pairStep_positions (Js : List ℝ) (i : ℕ) (L : List ℕ) (acc : Swarmalator) :
    (L.foldl (pairStep Js i) acc).positions = acc.positions := by
  induction L generalizing acc with
  | nil => rfl
  | cons j t ih => rw [List.foldl_cons, ih, pairStep_positions]

lemma foldl_pairStep_vel_length (Js : List ℝ) (i : ℕ) (L : List ℕ) (acc : Swarmalator) :
    (L.foldl (pairStep Js i) acc).velocities.length = acc.velocities.length := by
  induction L generalizing acc with
  | nil => rfl
  | cons j t ih => rw [List.foldl_cons, ih, pairStep_velocities_length]

lemma foldl_pairStep_delta_length (Js : List ℝ) (i : ℕ) (L : List ℕ) (acc : Swarmalator) :
    (L.foldl (pairStep Js i) acc).delta_phases.length = acc.delta_phases.length := by
  induction L generalizing acc with
  | nil => rfl
  | cons j t ih => rw [List.foldl_cons, ih, pairStep_delta_length]

/-- Chirality base term of the velocity (lib.rs lines 147-153), x axis:
`chirality i * cos (phase i + π/2)` when chirality is present, else 0. -/
def velBaseX (chiral : Option (List ℝ)) (phases : List ℝ) (i : ℕ) : ℝ :=
  match chiral with
  | some ch => getf ch i * Real.cos (getf phases i + Real.pi / 2)
  | none => 0

/-- Chirality base term of the velocity, y axis. -/
def velBaseY (chiral : Option (List ℝ)) (phases : List ℝ) (i : ℕ) : ℝ :=
  match chiral with
  | some ch => getf ch i * Real.sin (getf phases i + Real.pi / 2)
  | none => 0

@[simp] lemma agentStep_agents (Js : List ℝ) (acc : Swarmalator) (i : ℕ) :
    (agentStep Js acc i).agents = acc.agents := by
  simp only [agentStep]
  rw [foldl_pairStep_agents]

@[simp] lemma agentStep_A (Js : List ℝ) (acc : Swarmalator) (i : ℕ) :
    (agentStep Js acc i).A = acc.A := by
  simp only [agentStep]
  rw [foldl_pairStep_A]

@[simp] lemma agentStep_B (Js : List ℝ) (acc : Swarmalator) (i : ℕ) :
    (agentStep Js acc i).B = acc.B := by
  simp only [agentStep]
  rw [foldl_pairStep_B]

@[simp] lemma agentStep_K (Js : List ℝ) (acc : Swarmalator) (i : ℕ) :
    (agentStep Js acc i).K = acc.K := by
  simp only [agentStep]
  rw [foldl_pairStep_K]

@[simp] lemma agentStep_J (Js : List ℝ) (acc : Swarmalator) (i : ℕ) :
    (agentStep Js acc i).J = acc.J := by
  simp only [agentStep]
  rw [foldl_pairStep_J]

@[simp] lemma agentStep_target (Js : List ℝ) (acc : Swarmalator) (i : ℕ) :
    (agentStep Js acc i).target = acc.target := by
  simp only [agentStep]
  rw [foldl_pairStep_target]

@[simp] lemma agentStep_nf (Js : List ℝ) (acc : Swarmalator) (i : ℕ) :
    (agentStep Js acc i).natural_frequencies = acc.natural_frequencies := by
  simp only [agentStep]
  rw [foldl_pairStep_nf]

@[simp] lemma agentStep_chiral (Js : List ℝ) (acc : Swarmalator) (i : ℕ) :
    (agentStep Js acc i).chiral = acc.chiral := by
  simp only [agentStep]
  rw [foldl_pairStep_chiral]

@[simp] lemma agentStep_phases (Js : List ℝ) (acc : Swarmalator) (i : ℕ) :
    (agentStep Js acc i).phases = acc.phases := by
  simp only [agentStep]
  rw [foldl_pairStep_phases]

@[simp] lemma agentStep_positions (Js : List ℝ) (acc : Swarmalator) (i : ℕ) :
    (agentStep Js acc i).positions = acc.positions := by
  simp only [agentStep]
  rw [foldl_pairStep_positions]

@[simp] lemma agentStep_vel_length (Js : List ℝ) (acc : Swarmalator) (i : ℕ) :
    (agentStep Js acc i).velocities.length = acc.velocities.length := by
  simp only [agentStep]
  rw [foldl_pairStep_vel_length]
  cases acc.chiral <;> simp

@[simp] lemma agentStep_delta_length (Js : List ℝ) (acc : Swarmalator) (i : ℕ) :
    (agentStep Js acc i).delta_phases.length = acc.delta_phases.length := by
  simp only [agentStep]
  rw [foldl_pairStep_delta_length]
  simp

lemma agentStep_delta_self (Js : List ℝ) (acc : Swarmalator) (i : ℕ)
    (h : i < acc.delta_phases.length) :
    getf (agentStep Js acc i).delta_phases i
      = getf acc.natural_frequencies i
        + (((List.range acc.agents).filter fun j => ¬ i = j).map
            (fun j => phaseContrib acc.positions acc.phases acc.K acc.agents
              acc.chiral acc.natural_frequencies i j)).sum := by
  simp only [agentStep]
  rw [foldl_pairStep_delta Js i _ _ (by simpa using h)]
  simp only []
  rw [getf_set_self _ (by simpa using h)]

lemma agentStep_delta_other (Js : List ℝ) (acc : Swarmalator) {j k : ℕ}
    (hk : j ≠ k) :
    getf (agentStep Js acc j).delta_phases k = getf acc.delta_phases k := by
  simp only [agentStep]
  rw [foldl_pairStep_delta_other Js j k hk]
  simp only []
  rw [getf_set_ne _ _ hk]

lemma agentStep_vel_x (Js : List ℝ) (acc : Swarmalator) (i : ℕ)
    (hx : 2 * i < acc.velocities.length) :
    getf (agentStep Js acc i).velocities (2 * i)
      = velBaseX acc.chiral acc.phases i
        + (((List.range acc.agents).filter fun j => ¬ i = j).map
            (fun j => (1 / (acc.agents : ℝ)) *
              velContribX acc.positions acc.phases acc.A acc.B (getf Js i)
                acc.chiral acc.natural_frequencies i j)).sum := by
  simp only [agentStep]
  rw [foldl_pairStep_vel_x Js i _ _ (by cases acc.chiral <;> simpa using hx)]
  cases hch : acc.chiral with
  | none =>
      simp only [hch, velBaseX]
      rw [getf_set_ne _ _ (by omega : 2 * i + 1 ≠ 2 * i), getf_set_self _ hx]
  | some ch =>
      simp only [hch, velBaseX]
      rw [getf_set_ne _ _ (by omega : 2 * i + 1 ≠ 2 * i), getf_set_self _ hx]

lemma agentStep_vel_y (Js : List ℝ) (acc : Swarmalator) (i : ℕ)
    (hy : 2 * i + 1 < acc.velocities.length) :
    getf (agentStep Js acc i).velocities (2 * i + 1)
      = velBaseY acc.chiral acc.phases i
        + (((List.range acc.agents).filter fun j => ¬ i = j).map
            (fun j => (1 / (acc.agents : ℝ)) *
              velContribY acc.positions acc.phases acc.A acc.B (getf Js i)
                acc.chiral acc.natural_frequencies i j)).sum := by
  simp only [agentStep]
  rw [foldl_pairStep_vel_y Js i _ _ (by cases acc.chiral <;> simpa using hy)]
  cases hch : acc.chiral with
  | none =>
      simp only [hch, velBaseY]
      rw [getf_set_self _ (by simpa using hy)]
  | some ch =>
      simp only [hch, velBaseY]
      rw [getf_set_self _ (by simpa using hy)]

lemma agentStep_vel_other (Js : List ℝ) (acc : Swarmalator) {j k : ℕ}
    (hk1 : 2 * j ≠ k) (hk2 : 2 * j + 1 ≠ k) :
    getf (agentStep Js acc j).velocities k = getf acc.velocities k := by
  simp only [agentStep]
  rw [foldl_pairStep_vel_other Js j k hk1 hk2]
  cases acc.chiral with
  | none => rw [getf_set_ne _ _ hk2, getf_set_ne _ _ hk1]
  | some ch => rw [getf_set_ne _ _ hk2, getf_set_ne _ _ hk1]

/-! ### Outer fold characterization (first pass) -/

lemma foldl_agentStep_agents (Js : List ℝ) (L : List ℕ) (acc : Swarmalator) :
    (L.foldl (agentStep Js) acc).agents = acc.agents := by
  induction L generalizing acc with
  | nil => rfl
  | cons j t ih => rw [List.foldl_cons, ih, agentStep_agents]

lemma foldl_agentStep_A (Js : List ℝ) (L : List ℕ) (acc : Swarmalator) :
    (L.foldl (agentStep Js) acc).A = acc.A := by
  induction L generalizing acc with
  | nil => rfl
  | cons j t ih => rw [List.foldl_cons, ih, agentStep_A]

lemma foldl_agentStep_B (Js : List ℝ) (L : List ℕ) (acc : Swarmalator) :
    (L.foldl (agentStep Js) acc).B = acc.B := by
  induction L generalizing acc with
  | nil => rfl
  | cons j t ih => rw [List.foldl_cons, ih, agentStep_B]

lemma foldl_agentStep_K (Js : List ℝ) (L : List ℕ) (acc : Swarmalator) :
    (L.foldl (agentStep Js) acc).K = acc.K := by
  induction L generalizing acc with
  | nil => rfl
  | cons j t ih => rw [List.foldl_cons, ih, agentStep_K]

lemma foldl_agentStep_J (Js : List ℝ) (L : List ℕ) (acc : Swarmalator) :
    (L.foldl (agentStep Js) acc).J = acc.J := by
  induction L generalizing acc with
  | nil => rfl
  | cons j t ih => rw [List.foldl_cons, ih, agentStep_J]

lemma foldl_agentStep_target (Js : List ℝ) (L : List ℕ) (acc : Swarmalator) :
    (L.foldl (agentStep Js) acc).target = acc.target := by
  induction L generalizing acc with
  | nil => rfl
  | cons j t ih => rw [List.foldl_cons, ih, agentStep_target]

lemma foldl_agentStep_nf (Js : List ℝ) (L : List ℕ) (acc : Swarmalator) :
    (L.foldl (agentStep Js) acc).natural_frequencies = acc.natural_frequencies := by
  induction L generalizing acc with
  | nil => rfl
  | cons j t ih => rw [List.foldl_cons, ih, agentStep_nf]

lemma foldl_agentStep_chiral (Js : List ℝ) (L : List ℕ) (acc : Swarmalator) :
    (L.foldl (agentStep Js) acc).chiral = acc.chiral := by
  induction L generalizing acc with
  | nil => rfl
  | cons j t ih => rw [List.foldl_cons, ih, agentStep_chiral]

lemma foldl_agentStep_phases (Js : List ℝ) (L : List ℕ) (acc : Swarmalator) :
    (L.foldl (agentStep Js) acc).phases = acc.phases := by
  induction L generalizing acc with
  | nil => rfl
  | cons j t ih => rw [List.foldl_cons, ih, agentStep_phases]

lemma foldl_agentStep_positions (Js : List ℝ) (L : List ℕ) (acc : Swarmalator) :
    (L.foldl (agentStep Js) acc).positions = acc.positions := by
  induction L generalizing acc with
  | nil => rfl
  | cons j t ih => rw [List.foldl_cons, ih, agentStep_positions]

lemma foldl_agentStep_vel_length (Js : List ℝ) (L : List ℕ) (acc : Swarmalator) :
    (L.foldl (agentStep Js) acc).velocities.length = acc.velocities.length := by
  induction L generalizing acc with
  | nil => rfl
  | cons j t ih => rw [List.foldl_cons, ih, agentStep_vel_length]

lemma foldl_agentStep_delta_length (Js : List ℝ) (L : List ℕ) (acc : Swarmalator) :
    (L.foldl (agentStep Js) acc).delta_phases.length = acc.delta_phases.length := by
  induction L generalizing acc with
  | nil => rfl
  | cons j t ih => rw [List.foldl_cons, ih, agentStep_delta_length]

lemma foldl_agentStep_delta_other (Js : List ℝ) (i : ℕ) (L : List ℕ) :
    ∀ acc : Swarmalator, i ∉ L →
      getf (L.foldl (agentStep Js) acc).delta_phases i = getf acc.delta_phases i := by
  induction L with
  | nil => intro acc _; rfl
  | cons j t ih =>
    intro acc hL
    have h1 : ¬ i = j := by
      intro h
      exact hL (by simp [h])
    have h2 : i ∉ t := fun h => hL (List.mem_cons_of_mem _ h)
    rw [List.foldl_cons, ih _ h2, agentStep_delta_other Js acc (fun h => h1 h.symm)]

lemma foldl_agentStep_vel_other (Js : List ℝ) (k : ℕ) (L : List ℕ)
    (hk : ∀ j ∈ L, 2 * j ≠ k ∧ 2 * j + 1 ≠ k) :
    ∀ acc : Swarmalator,
      getf (L.foldl (agentStep Js) acc).velocities k = getf acc.velocities k := by
  induction L with
  | nil => intro acc; rfl
  | cons j t ih =>
    intro acc
    have hj := hk j (by simp)
    rw [List.foldl_cons, ih (fun x hx => hk x (List.mem_cons_of_mem _ hx)),
      agentStep_vel_other Js acc hj.1 hj.2]

lemma foldl_agentStep_delta (Js : List ℝ) (i : ℕ) (L : List ℕ) :
    ∀ acc : Swarmalator, L.Nodup → i ∈ L → i < acc.delta_phases.length →
      getf (L.foldl (agentStep Js) acc).delta_phases i
        = getf acc.natural_frequencies i
          + (((List.range acc.agents).filter fun j => ¬ i = j).map
              (fun j => phaseContrib acc.positions acc.phases acc.K acc.agents
                acc.chiral acc.natural_frequencies i j)).sum := by
  induction L with
  | nil => intro acc _ hmem; simp at hmem
  | cons j t ih =>
    intro acc hnd hmem hlen
    rw [List.nodup_cons] at hnd
    rw [List.foldl_cons]
    by_cases hij : i = j
    · subst hij
      rw [foldl_agentStep_delta_other Js i t _ hnd.1,
        agentStep_delta_self Js acc i hlen]
    · have hmem' : i ∈ t := by
        rcases List.mem_cons.mp hmem with h | h
        · exact absurd h hij
        · exact h
      rw [ih (agentStep Js acc j) hnd.2 hmem' (by simpa using hlen)]
      simp only [agentStep_positions, agentStep_phases, agentStep_K, agentStep_agents,
        agentStep_chiral, agentStep_nf]

lemma foldl_agentStep_vel_x (Js : List ℝ) (i : ℕ) (L : List ℕ) :
    ∀ acc : Swarmalator, L.Nodup → i ∈ L → 2 * i < acc.velocities.length →
      getf (L.foldl (agentStep Js) acc).velocities (2 * i)
        = velBaseX acc.chiral acc.phases i
          + (((List.range acc.agents).filter fun j => ¬ i = j).map
              (fun j => (1 / (acc.agents : ℝ)) *
                velContribX acc.positions acc.phases acc.A acc.B (getf Js i)
                  acc.chiral acc.natural_frequencies i j)).sum := by
  induction L with
  | nil => intro acc _ hmem; simp at hmem
  | cons j t ih =>
    intro acc hnd hmem hlen
    rw [List.nodup_cons] at hnd
    rw [List.foldl_cons]
    by_cases hij : i = j
    · subst hij
      rw [foldl_agentStep_vel_other Js (2 * i) t
          (fun x hx =>
            have hxi : x ≠ i := fun h => hnd.1 (h ▸ hx)
            ⟨by omega, by omega⟩) _,
        agentStep_vel_x Js acc i hlen]
    · have hmem' : i ∈ t := by
        rcases List.mem_cons.mp hmem with h | h
        · exact absurd h hij
        · exact h
      rw [ih (agentStep Js acc j) hnd.2 hmem' (by simpa using hlen)]
      simp only [agentStep_positions, agentStep_phases, agentStep_A, agentStep_B,
        agentStep_agents, agentStep_chiral, agentStep_nf]

lemma foldl_agentStep_vel_y (Js : List ℝ) (i : ℕ) (L : List ℕ) :
    ∀ acc : Swarmalator, L.Nodup → i ∈ L → 2 * i + 1 < acc.velocities.length →
      getf (L.foldl (agentStep Js) acc).velocities (2 * i + 1)
        = velBaseY acc.chiral acc.phases i
          + (((List.range acc.agents).filter fun j => ¬ i = j).map
              (fun j => (1 / (acc.agents : ℝ)) *
                velContribY acc.positions acc.phases acc.A acc.B (getf Js i)
                  acc.chiral acc.natural_frequencies i j)).sum := by
  induction L with
  | nil => intro acc _ hmem; simp at hmem
  | cons j t ih =>
    intro acc hnd hmem hlen
    rw [List.nodup_cons] at hnd
    rw [List.foldl_cons]
    by_cases hij : i = j
    · subst hij
      rw [foldl_agentStep_vel_other Js (2 * i + 1) t
          (fun x hx =>
            have hxi : x ≠ i := fun h => hnd.1 (h ▸ hx)
            ⟨by omega, by omega⟩) _,
        agentStep_vel_y Js acc i hlen]
    · have hmem' : i ∈ t := by
        rcases List.mem_cons.mp hmem with h | h
        · exact absurd h hij
        · exact h
      rw [ih (agentStep Js acc j) hnd.2 hmem' (by simpa using hlen)]
      simp only [agentStep_positions, agentStep_phases, agentStep_A, agentStep_B,
        agentStep_agents, agentStep_chiral, agentStep_nf]

/-! ### The integration pass -/

@[simp] lemma integrateStep_agents (dt : ℝ) (acc : Swarmalator) (i : ℕ) :
    (integrateStep dt acc i).agents = acc.agents := rfl

@[simp] lemma integrateStep_A (dt : ℝ) (acc : Swarmalator) (i : ℕ) :
    (integrateStep dt acc i).A = acc.A := rfl

@[simp] lemma integrateStep_B (dt : ℝ) (acc : Swarmalator) (i : ℕ) :
    (integrateStep dt acc i).B = acc.B := rfl

@[simp] lemma integrateStep_K (dt : ℝ) (acc : Swarmalator) (i : ℕ) :
    (integrateStep dt acc i).K = acc.K := rfl

@[simp] lemma integrateStep_J (dt : ℝ) (acc : Swarmalator) (i : ℕ) :
    (integrateStep dt acc i).J = acc.J := rfl

@[simp] lemma integrateStep_target (dt : ℝ) (acc : Swarmalator) (i : ℕ) :
    (integrateStep dt acc i).target = acc.target := rfl

@[simp] lemma integrateStep_nf (dt : ℝ) (acc : Swarmalator) (i : ℕ) :
    (integrateStep dt acc i).natural_frequencies = acc.natural_frequencies := rfl

@[simp] lemma integrateStep_chiral (dt : ℝ) (acc : Swarmalator) (i : ℕ) :
    (integrateStep dt acc i).chiral = acc.chiral := rfl

@[simp] lemma integrateStep_velocities (dt : ℝ) (acc : Swarmalator) (i : ℕ) :
    (integrateStep dt acc i).velocities = acc.velocities := rfl

@[simp] lemma integrateStep_delta (dt : ℝ) (acc : Swarmalator) (i : ℕ) :
    (integrateStep dt acc i).delta_phases = acc.delta_phases := rfl

@[simp] lemma integrateStep_phases_length (dt : ℝ) (acc : Swarmalator) (i : ℕ) :
    (integrateStep dt acc i).phases.length = acc.phases.length := by
  simp [integrateStep]

@[simp] lemma integrateStep_pos_length (dt : ℝ) (acc : Swarmalator) (i : ℕ) :
    (integrateStep dt acc i).positions.length = acc.positions.length := by
  simp [integrateStep]

lemma integrateStep_phase_self (dt : ℝ) (acc : Swarmalator) (i : ℕ)
    (h : i < acc.phases.length) :
    getf (integrateStep dt acc i).phases i
      = fmod (getf acc.phases i + getf acc.delta_phases i * dt) (2 * Real.pi) := by
  simp only [integrateStep]
  rw [getf_set_self _ (by simpa using h), getf_set_self _ h]

lemma integrateStep_phase_other (dt : ℝ) (acc : Swarmalator) {i k : ℕ}
    (hk : i ≠ k) :
    getf (integrateStep dt acc i).phases k = getf acc.phases k := by
  simp only [integrateStep]
  rw [getf_set_ne _ _ hk, getf_set_ne _ _ hk]

lemma integrateStep_pos_x (dt : ℝ) (acc : Swarmalator) (i : ℕ)
    (h : 2 * i < acc.positions.length) :
    getf (integrateStep dt acc i).positions (2 * i)
      = getf acc.positions (2 * i) + getf acc.velocities (2 * i) * dt := by
  simp only [integrateStep]
  rw [getf_set_ne _ _ (by omega : 2 * i + 1 ≠ 2 * i), getf_set_self _ h]

lemma integrateStep_pos_y (dt : ℝ) (acc : Swarmalator) (i : ℕ)
    (h : 2 * i + 1 < acc.positions.length) :
    getf (integrateStep dt acc i).positions (2 * i + 1)
      = getf acc.positions (2 * i + 1) + getf acc.velocities (2 * i + 1) * dt := by
  simp only [integrateStep]
  rw [getf_set_self _ (by simpa using h), getf_set_ne _ _ (by omega : 2 * i ≠ 2 * i + 1)]

lemma integrateStep_pos_other (dt : ℝ) (acc : Swarmalator) {i k : ℕ}
    (hk1 : 2 * i ≠ k) (hk2 : 2 * i + 1 ≠ k) :
    getf (integrateStep dt acc i).positions k = getf acc.positions k := by
  simp only [integrateStep]
  rw [getf_set_ne _ _ hk2, getf_set_ne _ _ hk1]

lemma foldl_integrateStep_agents (dt : ℝ) (L : List ℕ) (acc : Swarmalator) :
    (L.foldl (integrateStep dt) acc).agents = acc.agents := by
  induction L generalizing acc with
  | nil => rfl
  | cons j t ih => rw [List.foldl_cons, ih, integrateStep_agents]

lemma foldl_integrateStep_A (dt : ℝ) (L : List ℕ) (acc : Swarmalator) :
    (L.foldl (integrateStep dt) acc).A = acc.A := by
  induction L generalizing acc with
  | nil => rfl
  | cons j t ih => rw [List.foldl_cons, ih, integrateStep_A]

lemma foldl_integrateStep_B (dt : ℝ) (L : List ℕ) (acc : Swarmalator) :
    (L.foldl (integrateStep dt) acc).B = acc.B := by
  induction L generalizing acc with
  | nil => rfl
  | cons j t ih => rw [List.foldl_cons, ih, integrateStep_B]

lemma foldl_integrateStep_K (dt : ℝ) (L : List ℕ) (acc : Swarmalator) :
    (L.foldl (integrateStep dt) acc).K = acc.K := by
  induction L generalizing acc with
  | nil => rfl
  | cons j t ih => rw [List.foldl_cons, ih, integrateStep_K]

lemma foldl_integrateStep_J (dt : ℝ) (L : List ℕ) (acc : Swarmalator) :
    (L.foldl (integrateStep dt) acc).J = acc.J := by
  induction L generalizing acc with
  | nil => rfl
  | cons j t ih => rw [List.foldl_cons, ih, integrateStep_J]

lemma foldl_integrateStep_target (dt : ℝ) (L : List ℕ) (acc : Swarmalator) :
    (L.foldl (integrateStep dt) acc).target = acc.target := by
  induction L generalizing acc with
  | nil => rfl
  | cons j t ih => rw [List.foldl_cons, ih, integrateStep_target]

lemma foldl_integrateStep_nf (dt : ℝ) (L : List ℕ) (acc : Swarmalator) :
    (L.foldl (integrateStep dt) acc).natural_frequencies = acc.natural_frequencies := by
  induction L generalizing acc with
  | nil => rfl
  | cons j t ih => rw [List.foldl_cons, ih, integrateStep_nf]

lemma foldl_integrateStep_chiral (dt : ℝ) (L : List ℕ) (acc : Swarmalator) :
    (L.foldl (integrateStep dt) acc).chiral = acc.chiral := by
  induction L generalizing acc with
  | nil => rfl
  | cons j t ih => rw [List.foldl_cons, ih, integrateStep_chiral]

lemma foldl_integrateStep_velocities (dt : ℝ) (L : List ℕ) (acc : Swarmalator) :
    (L.foldl (integrateStep dt) acc).velocities = acc.velocities := by
  induction L generalizing acc with
  | nil => rfl
  | cons j t ih => rw [List.foldl_cons, ih, integrateStep_velocities]

lemma foldl_integrateStep_delta (dt : ℝ) (L : List ℕ) (acc : Swarmalator) :
    (L.foldl (integrateStep dt) acc).delta_phases = acc.delta_phases := by
  induction L generalizing acc with
  | nil => rfl
  | cons j t ih => rw [List.foldl_cons, ih, integrateStep_delta]

lemma foldl_integrateStep_phases_length (dt : ℝ) (L : List ℕ) (acc : Swarmalator) :
    (L.foldl (integrateStep dt) acc).phases.length = acc.phases.length := by
  induction L generalizing acc with
  | nil => rfl
  | cons j t ih => rw [List.foldl_cons, ih, integrateStep_phases_length]

lemma foldl_integrateStep_pos_length (dt : ℝ) (L : List ℕ) (acc : Swarmalator) :
    (L.foldl (integrateStep dt) acc).positions.length = acc.positions.length := by
  induction L generalizing acc with
  | nil => rfl
  | cons j t ih => rw [List.foldl_cons, ih, integrateStep_pos_length]

lemma foldl_integrateStep_phase_other (dt : ℝ) (i : ℕ) (L : List ℕ) :
    ∀ acc : Swarmalator, i ∉ L →
      getf (L.foldl (integrateStep dt) acc).phases i = getf acc.phases i := by
  induction L with
  | nil => intro acc _; rfl
  | cons j t ih =>
    intro acc hL
    have h1 : ¬ i = j := fun h => hL (by simp [h])
    have h2 : i ∉ t := fun h => hL (List.mem_cons_of_mem _ h)
    rw [List.foldl_cons, ih _ h2, integrateStep_phase_other dt acc (fun h => h1 h.symm)]

lemma foldl_integrateStep_pos_other (dt : ℝ) (k : ℕ) (L : List ℕ)
    (hk : ∀ j ∈ L, 2 * j ≠ k ∧ 2 * j + 1 ≠ k) :
    ∀ acc : Swarmalator,
      getf (L.foldl (integrateStep dt) acc).positions k = getf acc.positions k := by
  induction L with
  | nil => intro acc; rfl
  | cons j t ih =>
    intro acc
    have hj := hk j (by simp)
    rw [List.foldl_cons, ih (fun x hx => hk x (List.mem_cons_of_mem _ hx)),
      integrateStep_pos_other dt acc hj.1 hj.2]

lemma foldl_integrateStep_phase (dt : ℝ) (i : ℕ) (L : List ℕ) :
    ∀ acc : Swarmalator, L.Nodup → i ∈ L → i < acc.phases.length →
      getf (L.foldl (integrateStep dt) acc).phases i
        = fmod (getf acc.phases i + getf acc.delta_phases i * dt) (2 * Real.pi) := by
  induction L with
  | nil => intro acc _ hmem; simp at hmem
  | cons j t ih =>
    intro acc hnd hmem hlen
    rw [List.nodup_cons] at hnd
    rw [List.foldl_cons]
    by_cases hij : i = j
    · subst hij
      rw [foldl_integrateStep_phase_other dt i t _ hnd.1,
        integrateStep_phase_self dt acc i hlen]
    · have hmem' : i ∈ t := by
        rcases List.mem_cons.mp hmem with h | h
        · exact absurd h hij
        · exact h
      rw [ih (integrateStep dt acc j) hnd.2 hmem' (by simpa using hlen),
        integrateStep_phase_other dt acc (fun h => hij h.symm), integrateStep_delta]

lemma foldl_integrateStep_pos_x (dt : ℝ) (i : ℕ) (L : List ℕ) :
    ∀ acc : Swarmalator, L.Nodup → i ∈ L → 2 * i < acc.positions.length →
      getf (L.foldl (integrateStep dt) acc).positions (2 * i)
        = getf acc.positions (2 * i) + getf acc.velocities (2 * i) * dt := by
  induction L with
  | nil => intro acc _ hmem; simp at hmem
  | cons j t ih =>
    intro acc hnd hmem hlen
    rw [List.nodup_cons] at hnd
    rw [List.foldl_cons]
    by_cases hij : i = j
    · subst hij
      rw [foldl_integrateStep_pos_other dt (2 * i) t
          (fun x hx =>
            have hxi : x ≠ i := fun h => hnd.1 (h ▸ hx)
            ⟨by omega, by omega⟩) _,
        integrateStep_pos_x dt acc i hlen]
    · have hmem' : i ∈ t := by
        rcases List.mem_cons.mp hmem with h | h
        · exact absurd h hij
        · exact h
      rw [ih (integrateStep dt acc j) hnd.2 hmem' (by simpa using hlen),
        integrateStep_pos_other dt acc (by omega) (by omega), integrateStep_velocities]

lemma foldl_integrateStep_pos_y (dt : ℝ) (i : ℕ) (L : List ℕ) :
    ∀ acc : Swarmalator, L.Nodup → i ∈ L → 2 * i + 1 < acc.positions.length →
      getf (L.foldl (integrateStep dt) acc).positions (2 * i + 1)
        = getf acc.positions (2 * i + 1) + getf acc.velocities (2 * i + 1) * dt := by
  induction L with
  | nil => intro acc _ hmem; simp at hmem
  | cons j t ih =>
    intro acc hnd hmem hlen
    rw [List.nodup_cons] at hnd
    rw [List.foldl_cons]
    by_cases hij : i = j
    · subst hij
      rw [foldl_integrateStep_pos_other dt (2 * i + 1) t
          (fun x hx =>
            have hxi : x ≠ i := fun h => hnd.1 (h ▸ hx)
            ⟨by omega, by omega⟩) _,
        integrateStep_pos_y dt acc i hlen]
    · have hmem' : i ∈ t := by
        rcases List.mem_cons.mp hmem with h | h
        · exact absurd h hij
        · exact h
      rw [ih (integrateStep dt acc j) hnd.2 hmem' (by simpa using hlen),
        integrateStep_pos_other dt acc (by omega) (by omega), integrateStep_velocities]

/-! ### Closed-form characterization of `update` -/

/-- The indices of the agents other than `i`, in loop order. -/
def others (n i : ℕ) : List ℕ := (List.range n).filter fun j => ¬ i = j

/-- Closed form of the phase velocity `delta_phases[i]` computed by the
first pass of `update`, as a pure function of the pre-update state:
the natural frequency plus the sum of the pairwise contributions. -/
def deltaPhaseAfter (s : Swarmalator) (i : ℕ) : ℝ :=
  getf s.natural_frequencies i
    + ((others s.agents i).map
        (fun j => phaseContrib s.positions s.phases s.K s.agents
          s.chiral s.natural_frequencies i j)).sum

/-- Closed form of `velocities[2 i]` computed by the first pass of
`update`, as a pure function of the pre-update state. -/
def velAfterX (s : Swarmalator) (i : ℕ) : ℝ :=
  velBaseX s.chiral s.phases i
    + ((others s.agents i).map
        (fun j => (1 / (s.agents : ℝ)) *
          velContribX s.positions s.phases s.A s.B (getf (computeJs s) i)
            s.chiral s.natural_frequencies i j)).sum

/-- Closed form of `velocities[2 i + 1]` computed by the first pass of
`update`, as a pure function of the pre-update state. -/
def velAfterY (s : Swarmalator) (i : ℕ) : ℝ :=
  velBaseY s.chiral s.phases i
    + ((others s.agents i).map
        (fun j => (1 / (s.agents : ℝ)) *
          velContribY s.positions s.phases s.A s.B (getf (computeJs s) i)
            s.chiral s.natural_frequencies i j)).sum

lemma update_agents (s : Swarmalator) (dt : ℝ) : (update s dt).agents = s.agents := by
  simp only [update]
  rw [foldl_integrateStep_agents, foldl_agentStep_agents]

lemma update_A (s : Swarmalator) (dt : ℝ) : (update s dt).A = s.A := by
  simp only [update]
  rw [foldl_integrateStep_A, foldl_agentStep_A]

lemma update_B (s : Swarmalator) (dt : ℝ) : (update s dt).B = s.B := by
  simp only [update]
  rw [foldl_integrateStep_B, foldl_agentStep_B]

lemma update_K (s : Swarmalator) (dt : ℝ) : (update s dt).K = s.K := by
  simp only [update]
  rw [foldl_integrateStep_K, foldl_agentStep_K]

lemma update_J (s : Swarmalator) (dt : ℝ) : (update s dt).J = s.J := by
  simp only [update]
  rw [foldl_integrateStep_J, foldl_agentStep_J]

lemma update_target (s : Swarmalator) (dt : ℝ) : (update s dt).target = s.target := by
  simp only [update]
  rw [foldl_integrateStep_target, foldl_agentStep_target]

lemma update_nf (s : Swarmalator) (dt : ℝ) :
    (update s dt).natural_frequencies = s.natural_frequencies := by
  simp only [update]
  rw [foldl_integrateStep_nf, foldl_agentStep_nf]

lemma update_chiral (s : Swarmalator) (dt : ℝ) : (update s dt).chiral = s.chiral := by
  simp only [update]
  rw [foldl_integrateStep_chiral, foldl_agentStep_chiral]

lemma update_vel_length (s : Swarmalator) (dt : ℝ) :
    (update s dt).velocities.length = s.velocities.length := by
  simp only [update]
  rw [foldl_integrateStep_velocities, foldl_agentStep_vel_length]

lemma update_delta_length (s : Swarmalator) (dt : ℝ) :
    (update s dt).delta_phases.length = s.delta_phases.length := by
  simp only [update]
  rw [foldl_integrateStep_delta, foldl_agentStep_delta_length]

lemma update_phases_length (s : Swarmalator) (dt : ℝ) :
    (update s dt).phases.length = s.phases.length := by
  simp only [update]
  rw [foldl_integrateStep_phases_length, foldl_agentStep_phases]

lemma update_pos_length (s : Swarmalator) (dt : ℝ) :
    (update s dt).positions.length = s.positions.length := by
  simp only [update]
  rw [foldl_integrateStep_pos_length, foldl_agentStep_positions]

lemma update_vel_x (s : Swarmalator) (dt : ℝ)
    (hv : s.velocities.length = 2 * s.agents) {i : ℕ} (hi : i < s.agents) :
    getf (update s dt).velocities (2 * i) = velAfterX s i := by
  simp only [update]
  rw [foldl_integrateStep_velocities,
    foldl_agentStep_vel_x (computeJs s) i _ _ (List.nodup_range _)
      (List.mem_range.mpr hi) (by omega)]
  rfl

lemma update_vel_y (s : Swarmalator) (dt : ℝ)
    (hv : s.velocities.length = 2 * s.agents) {i : ℕ} (hi : i < s.agents) :
    getf (update s dt).velocities (2 * i + 1) = velAfterY s i := by
  simp only [update]
  rw [foldl_integrateStep_velocities,
    foldl_agentStep_vel_y (computeJs s) i _ _ (List.nodup_range _)
      (List.mem_range.mpr hi) (by omega)]
  rfl

lemma update_delta (s : Swarmalator) (dt : ℝ)
    (hd : s.delta_phases.length = s.agents) {i : ℕ} (hi : i < s.agents) :
    getf (update s dt).delta_phases i = deltaPhaseAfter s i := by
  simp only [update]
  rw [foldl_integrateStep_delta,
    foldl_agentStep_delta (computeJs s) i _ _ (List.nodup_range _)
      (List.mem_range.mpr hi) (by omega)]
  rfl

lemma update_phase_raw (s : Swarmalator) (dt : ℝ)
    (hp : s.phases.length = s.agents) {i : ℕ} (hi : i < s.agents) :
    getf (update s dt).phases i
      = fmod (getf s.phases i
          + getf ((List.range s.agents).foldl (agentStep (computeJs s)) s).delta_phases i
            * dt) (2 * Real.pi) := by
  simp only [update]
  rw [foldl_integrateStep_phase dt i _ _ (List.nodup_range _)
      (by rw [foldl_agentStep_agents]; exact List.mem_range.mpr hi)
      (by rw [foldl_agentStep_phases]; omega),
    foldl_agentStep_phases]

lemma update_phase (s : Swarmalator) (dt : ℝ)
    (hp : s.phases.length = s.agents) (hd : s.delta_phases.length = s.agents)
    {i : ℕ} (hi : i < s.agents) :
    getf (update s dt).phases i
      = fmod (getf s.phases i + deltaPhaseAfter s i * dt) (2 * Real.pi) := by
  rw [update_phase_raw s dt hp hi,
    foldl_agentStep_delta (computeJs s) i _ _ (List.nodup_range _)
      (List.mem_range.mpr hi) (by omega)]
  rfl

lemma update_pos_x (s : Swarmalator) (dt : ℝ)
    (hx : s.positions.length = 2 * s.agents)
    (hv : s.velocities.length = 2 * s.agents) {i : ℕ} (hi : i < s.agents) :
    getf (update s dt).positions (2 * i)
      = getf s.positions (2 * i) + velAfterX s i * dt := by
  simp only [update]
  rw [foldl_integrateStep_pos_x dt i _ _ (List.nodup_range _)
      (by rw [foldl_agentStep_agents]; exact List.mem_range.mpr hi)
      (by rw [foldl_agentStep_positions]; omega),
    foldl_agentStep_positions,
    foldl_agentStep_vel_x (computeJs s) i _ _ (List.nodup_range _)
      (List.mem_range.mpr hi) (by omega)]
  rfl

lemma update_pos_y (s : Swarmalator) (dt : ℝ)
    (hx : s.positions.length = 2 * s.agents)
    (hv : s.velocities.length = 2 * s.agents) {i : ℕ} (hi : i < s.agents) :
    getf (update s dt).positions (2 * i + 1)
      = getf s.positions (2 * i + 1) + velAfterY s i * dt := by
  simp only [update]
  rw [foldl_integrateStep_pos_y dt i _ _ (List.nodup_range _)
      (by rw [foldl_agentStep_agents]; exact List.mem_range.mpr hi)
      (by rw [foldl_agentStep_positions]; omega),
    foldl_agentStep_positions,
    foldl_agentStep_vel_y (computeJs s) i _ _ (List.nodup_range _)
      (List.mem_range.mpr hi) (by omega)]
  rfl

/-! ### Characterization of `computeJs`, `listMin`, `listMax` -/

lemma foldl_min_le (xs : List ℝ) :
    ∀ a : ℝ, (xs.foldl (fun m v => min v m) a ≤ a) ∧
      ∀ x ∈ xs, xs.foldl (fun m v => min v m) a ≤ x := by
  induction xs with
  | nil => intro a; exact ⟨le_refl a, by intro x hx; simp at hx⟩
  | cons x xs ih =>
    intro a
    rw [List.foldl_cons]
    refine ⟨le_trans (ih (min x a)).1 (min_le_right x a), ?_⟩
    intro y hy
    rcases List.mem_cons.mp hy with h | h
    · rw [h]
      exact le_trans (ih (min x a)).1 (min_le_left x a)
    · exact (ih (min x a)).2 y h

lemma foldl_le_max (xs : List ℝ) :
    ∀ a : ℝ, (a ≤ xs.foldl (fun m v => max v m) a) ∧
      ∀ x ∈ xs, x ≤ xs.foldl (fun m v => max v m) a := by
  induction xs with
  | nil => intro a; exact ⟨le_refl a, by intro x hx; simp at hx⟩
  | cons x xs ih =>
    intro a
    rw [List.foldl_cons]
    refine ⟨le_trans (le_max_right x a) (ih (max x a)).1, ?_⟩
    intro y hy
    rcases List.mem_cons.mp hy with h | h
    · rw [h]
      exact le_trans (le_max_left x a) (ih (max x a)).1
    · exact (ih (max x a)).2 y h

lemma listMin_le {l : List ℝ} {x : ℝ} (hx : x ∈ l) : listMin l ≤ x := by
  cases l with
  | nil => simp at hx
  | cons a xs =>
    rw [listMin]
    rcases List.mem_cons.mp hx with h | h
    · exact h ▸ (foldl_min_le xs a).1
    · exact (foldl_min_le xs a).2 x h

lemma le_listMax {l : List ℝ} {x : ℝ} (hx : x ∈ l) : x ≤ listMax l := by
  cases l with
  | nil => simp at hx
  | cons a xs =>
    rw [listMax]
    rcases List.mem_cons.mp hx with h | h
    · exact h ▸ (foldl_le_max xs a).1
    · exact (foldl_le_max xs a).2 x h

lemma foldl_set_length (g : ℕ → ℝ) (L : List ℕ) :
    ∀ init : List ℝ,
      (L.foldl (fun js k => js.set k (g k)) init).length = init.length := by
  induction L with
  | nil => intro init; rfl
  | cons j t ih => intro init; rw [List.foldl_cons, ih, List.length_set]

lemma foldl_set_other (g : ℕ → ℝ) (i : ℕ) (L : List ℕ) :
    ∀ init : List ℝ, i ∉ L →
      getf (L.foldl (fun js k => js.set k (g k)) init) i = getf init i := by
  induction L with
  | nil => intro init _; rfl
  | cons j t ih =>
    intro init hL
    have h1 : ¬ j = i := fun h => hL (by simp [h])
    have h2 : i ∉ t := fun h => hL (List.mem_cons_of_mem _ h)
    rw [List.foldl_cons, ih _ h2, getf_set_ne _ _ h1]

lemma foldl_set_self (g : ℕ → ℝ) (i : ℕ) (L : List ℕ) :
    ∀ init : List ℝ, L.Nodup → i ∈ L → i < init.length →
      getf (L.foldl (fun js k => js.set k (g k)) init) i = g i := by
  induction L with
  | nil => intro init _ hmem; simp at hmem
  | cons j t ih =>
    intro init hnd hmem hlen
    rw [List.nodup_cons] at hnd
    rw [List.foldl_cons]
    by_cases hij : i = j
    · subst hij
      rw [foldl_set_other g i t _ hnd.1, getf_set_self _ hlen]
    · have hmem' : i ∈ t := by
        rcases List.mem_cons.mp hmem with h | h
        · exact absurd h hij
        · exact h
      rw [ih (init.set j (g j)) hnd.2 hmem' (by simpa using hlen)]

lemma distsToTarget_length (s : Swarmalator) (t : List ℝ) :
    (distsToTarget s t).length = s.agents := by
  rw [distsToTarget, List.length_map, List.length_range]

lemma computeJs_length (s : Swarmalator) : (computeJs s).length = s.agents := by
  cases htg : s.target with
  | none => simp [computeJs, htg]
  | some t =>
    simp only [computeJs, htg]
    rw [foldl_set_length, List.length_replicate]

lemma computeJs_none (s : Swarmalator) (htg : s.target = none) {i : ℕ}
    (hi : i < s.agents) : getf (computeJs s) i = s.J := by
  simp only [computeJs, htg]
  exact getf_replicate _ hi

lemma computeJs_some (s : Swarmalator) (t : List ℝ) (htg : s.target = some t)
    {i : ℕ} (hi : i < s.agents) :
    getf (computeJs s) i
      = s.A * |getf (distsToTarget s t) i - listMin (distsToTarget s t)|
          / (listMax (distsToTarget s t) - listMin (distsToTarget s t)) := by
  simp only [computeJs, htg]
  rw [foldl_set_self _ i _ _ (List.nodup_range _) (List.mem_range.mpr hi)
    (by rw [List.length_replicate]; exact hi)]

/-! ### Concrete engine states used by witnesses and counterexamples -/

/-- A well-formed two-agent engine: agents at (0,0) and (1,0), both with
phase 0, zero natural frequencies, no chirality, no target. -/
def egTwo : Swarmalator :=
  { agents := 2, A := 1, B := 1, K := 1, J := 1, target := none,
    natural_frequencies := [0, 0], chiral := none,
    velocities := [0, 0, 0, 0], phases := [0, 0],
    delta_phases := [0, 0], positions := [0, 0, 1, 0] }

/-- `egTwo` with nonzero stale velocities and phase deltas. -/
def egTwoStale : Swarmalator :=
  { agents := 2, A := 1, B := 1, K := 1, J := 1, target := none,
    natural_frequencies := [0, 0], chiral := none,
    velocities := [5, 6, 7, 8], phases := [0, 0],
    delta_phases := [3, 4], positions := [0, 0, 1, 0] }

/-- `egTwo` with a target at the first agent's position. -/
def egTwoTarget : Swarmalator :=
  { agents := 2, A := 1, B := 1, K := 1, J := 1, target := some [0, 0],
    natural_frequencies := [0, 0], chiral := none,
    velocities := [0, 0, 0, 0], phases := [0, 0],
    delta_phases := [0, 0], positions := [0, 0, 1, 0] }

/-- A well-formed one-agent engine at the origin with phase 0. -/
def egOne : Swarmalator :=
  { agents := 1, A := 1, B := 1, K := 0, J := 0, target := none,
    natural_frequencies := [0], chiral := none,
    velocities := [0, 0], phases := [0],
    delta_phases := [0], positions := [0, 0] }

/-- `egOne` with initial phase 7 (outside `(-2π, 2π)`). -/
def egPhase7 : Swarmalator :=
  { agents := 1, A := 1, B := 1, K := 0, J := 0, target := none,
    natural_frequencies := [0], chiral := none,
    velocities := [0, 0], phases := [7],
    delta_phases := [0], positions := [0, 0] }

/-- `egOne` with natural frequency 1. -/
def egNf1 : Swarmalator :=
  { agents := 1, A := 1, B := 1, K := 0, J := 0, target := none,
    natural_frequencies := [1], chiral := none,
    velocities := [0, 0], phases := [0],
    delta_phases := [0], positions := [0, 0] }

/-! ### The claims -/

/-- C1: for every agent `i` and every other agent `j ≠ i` processed by
`update`, the per-pair velocity contribution on each axis equals
`(Δaxis / dist) * (A + J[i] * cos (phase j - phase i - freq_diff_xy)) -
B * Δaxis / dist²` (the `velContribX`/`velContribY` formulas),
accumulated into `velocity[i]` scaled by `1 / agents` on top of the
chirality base term, and the per-pair phase contribution added to
`delta_phase[i]` equals `(K / agents) * sin (phase j - phase i -
freq_diff_phase) / dist` (the `phaseContrib` formula), on top of the
natural-frequency base term, with the chirality-dependent offsets zero
when chirality is absent. -/
theorem C1_pairwise_coupling (s : Swarmalator) (dt : ℝ) (i : ℕ)
    (hi : i < s.agents)
    (hv : s.velocities.length = 2 * s.agents)
    (hd : s.delta_phases.length = s.agents) :
    getf (update s dt).velocities (2 * i)
      = velBaseX s.chiral s.phases i
        + ((others s.agents i).map
            (fun j => (1 / (s.agents : ℝ)) *
              velContribX s.positions s.phases s.A s.B (getf (computeJs s) i)
                s.chiral s.natural_frequencies i j)).sum ∧
    getf (update s dt).velocities (2 * i + 1)
      = velBaseY s.chiral s.phases i
        + ((others s.agents i).map
            (fun j => (1 / (s.agents : ℝ)) *
              velContribY s.positions s.phases s.A s.B (getf (computeJs s) i)
                s.chiral s.natural_frequencies i j)).sum ∧
    getf (update s dt).delta_phases i
      = getf s.natural_frequencies i
        + ((others s.agents i).map
            (fun j => phaseContrib s.positions s.phases s.K s.agents
              s.chiral s.natural_frequencies i j)).sum :=
  ⟨update_vel_x s dt hv hi, update_vel_y s dt hv hi, update_delta s dt hd hi⟩

/-- Witness for C1 at the concrete two-agent engine `egTwo`. -/
theorem C1_pairwise_coupling_witness :
    (0 < egTwo.agents ∧ egTwo.velocities.length = 2 * egTwo.agents ∧
      egTwo.delta_phases.length = egTwo.agents) ∧
    (getf (update egTwo 1).velocities (2 * 0)
        = velBaseX egTwo.chiral egTwo.phases 0
          + ((others egTwo.agents 0).map
              (fun j => (1 / (egTwo.agents : ℝ)) *
                velContribX egTwo.positions egTwo.phases egTwo.A egTwo.B
                  (getf (computeJs egTwo) 0) egTwo.chiral
                  egTwo.natural_frequencies 0 j)).sum ∧
      getf (update egTwo 1).velocities (2 * 0 + 1)
        = velBaseY egTwo.chiral egTwo.phases 0
          + ((others egTwo.agents 0).map
              (fun j => (1 / (egTwo.agents : ℝ)) *
                velContribY egTwo.positions egTwo.phases egTwo.A egTwo.B
                  (getf (computeJs egTwo) 0) egTwo.chiral
                  egTwo.natural_frequencies 0 j)).sum ∧
      getf (update egTwo 1).delta_phases 0
        = getf egTwo.natural_frequencies 0
          + ((others egTwo.agents 0).map
              (fun j => phaseContrib egTwo.positions egTwo.phases egTwo.K
                egTwo.agents egTwo.chiral egTwo.natural_frequencies 0 j)).sum) :=
  ⟨⟨by decide, rfl, rfl⟩, C1_pairwise_coupling egTwo 1 0 (by decide) rfl rfl⟩

/-- C2: `update` is a two-pass algorithm.  The velocities and phase
deltas it stores are the pure functions `velAfterX`, `velAfterY`,
`deltaPhaseAfter` of the pre-update positions and phases only (no value
advanced during the call is ever read), and the integrated phases and
positions are obtained from the pre-update values and those derived
quantities in a separate pass. -/
theorem C2_two_pass (s : Swarmalator) (dt : ℝ)
    (hv : s.velocities.length = 2 * s.agents)
    (hd : s.delta_phases.length = s.agents)
    (hp : s.phases.length = s.agents)
    (hx : s.positions.length = 2 * s.agents) :
    ∀ i, i < s.agents →
      getf (update s dt).velocities (2 * i) = velAfterX s i ∧
      getf (update s dt).velocities (2 * i + 1) = velAfterY s i ∧
      getf (update s dt).delta_phases i = deltaPhaseAfter s i ∧
      getf (update s dt).phases i
        = fmod (getf s.phases i + deltaPhaseAfter s i * dt) (2 * Real.pi) ∧
      getf (update s dt).positions (2 * i)
        = getf s.positions (2 * i) + velAfterX s i * dt ∧
      getf (update s dt).positions (2 * i + 1)
        = getf s.positions (2 * i + 1) + velAfterY s i * dt :=
  fun _ hi =>
    ⟨update_vel_x s dt hv hi, update_vel_y s dt hv hi, update_delta s dt hd hi,
      update_phase s dt hp hd hi, update_pos_x s dt hx hv hi, update_pos_y s dt hx hv hi⟩

/-- Witness for C2 at the concrete two-agent engine `egTwo`. -/
theorem C2_two_pass_witness :
    (egTwo.velocities.length = 2 * egTwo.agents ∧
      egTwo.delta_phases.length = egTwo.agents ∧
      egTwo.phases.length = egTwo.agents ∧
      egTwo.positions.length = 2 * egTwo.agents) ∧
    (∀ i, i < egTwo.agents →
      getf (update egTwo 1).velocities (2 * i) = velAfterX egTwo i ∧
      getf (update egTwo 1).velocities (2 * i + 1) = velAfterY egTwo i ∧
      getf (update egTwo 1).delta_phases i = deltaPhaseAfter egTwo i ∧
      getf (update egTwo 1).phases i
        = fmod (getf egTwo.phases i + deltaPhaseAfter egTwo i * 1) (2 * Real.pi) ∧
      getf (update egTwo 1).positions (2 * i)
        = getf egTwo.positions (2 * i) + velAfterX egTwo i * 1 ∧
      getf (update egTwo 1).positions (2 * i + 1)
        = getf egTwo.positions (2 * i + 1) + velAfterY egTwo i * 1) :=
  ⟨⟨rfl, rfl, rfl, rfl⟩, C2_two_pass egTwo 1 rfl rfl rfl rfl⟩

/-- C3: the per-agent coupling strengths used by `update`.  When
`target` is absent every agent gets the global scalar `J`.  When
`target` is present, agent `i` gets
`A * |dist i - min| / (max - min)`; in particular, whenever the
distances are not all equal, an agent at minimal distance gets `0` and
an agent at maximal distance gets `A`, the others being the linear
interpolation by distance. -/
theorem C3_target_coupling (s : Swarmalator) (i : ℕ) (hi : i < s.agents) :
    (s.target = none → getf (computeJs s) i = s.J) ∧
    ∀ t, s.target = some t →
      getf (computeJs s) i
        = s.A * |getf (distsToTarget s t) i - listMin (distsToTarget s t)|
            / (listMax (distsToTarget s t) - listMin (distsToTarget s t)) ∧
      (listMax (distsToTarget s t) ≠ listMin (distsToTarget s t) →
        (getf (distsToTarget s t) i = listMin (distsToTarget s t) →
          getf (computeJs s) i = 0) ∧
        (getf (distsToTarget s t) i = listMax (distsToTarget s t) →
          getf (computeJs s) i = s.A)) := by
  refine ⟨fun htg => computeJs_none s htg hi,
    fun t htg => ⟨computeJs_some s t htg hi, fun hne => ⟨?_, ?_⟩⟩⟩
  · intro hmin
    rw [computeJs_some s t htg hi, hmin]
    simp
  · intro hmax
    rw [computeJs_some s t htg hi, hmax]
    have hmem : getf (distsToTarget s t) i ∈ distsToTarget s t :=
      getf_mem (by rw [distsToTarget_length]; exact hi)
    have hmm : listMin (distsToTarget s t) ≤ listMax (distsToTarget s t) :=
      le_trans (listMin_le hmem) (le_listMax hmem)
    rw [abs_of_nonneg (by linarith), mul_div_assoc,
      div_self (sub_ne_zero.mpr hne), mul_one]

/-- Witness for C3 at the concrete engine `egTwoTarget` (target present)
and, through the same theorem shape, the no-target branch. -/
theorem C3_target_coupling_witness :
    (0 < egTwoTarget.agents) ∧
    ((egTwoTarget.target = none → getf (computeJs egTwoTarget) 0 = egTwoTarget.J) ∧
    ∀ t, egTwoTarget.target = some t →
      getf (computeJs egTwoTarget) 0
        = egTwoTarget.A *
            |getf (distsToTarget egTwoTarget t) 0 - listMin (distsToTarget egTwoTarget t)|
            / (listMax (distsToTarget egTwoTarget t) - listMin (distsToTarget egTwoTarget t)) ∧
      (listMax (distsToTarget egTwoTarget t) ≠ listMin (distsToTarget egTwoTarget t) →
        (getf (distsToTarget egTwoTarget t) 0 = listMin (distsToTarget egTwoTarget t) →
          getf (computeJs egTwoTarget) 0 = 0) ∧
        (getf (distsToTarget egTwoTarget t) 0 = listMax (distsToTarget egTwoTarget t) →
          getf (computeJs egTwoTarget) 0 = egTwoTarget.A))) :=
  ⟨by decide, C3_target_coupling egTwoTarget 0 (by decide)⟩

/-- C10: `update` mutates only `velocities`, `delta_phases`, `phases`
and `positions`; the fields `agents`, `A`, `B`, `K`, `J`,
`natural_frequencies`, `chiral` and `target` are unchanged by the
call. -/
theorem C10_update_frame (s : Swarmalator) (dt : ℝ) :
    (update s dt).agents = s.agents ∧ (update s dt).A = s.A ∧
    (update s dt).B = s.B ∧ (update s dt).K = s.K ∧ (update s dt).J = s.J ∧
    (update s dt).natural_frequencies = s.natural_frequencies ∧
    (update s dt).chiral = s.chiral ∧ (update s dt).target = s.target :=
  ⟨update_agents s dt, update_A s dt, update_B s dt, update_K s dt, update_J s dt,
    update_nf s dt, update_chiral s dt, update_target s dt⟩

lemma update_phase_range (s : Swarmalator) (dt : ℝ)
    (hp : s.phases.length = s.agents) {i : ℕ} (hi : i < s.agents) :
    -(2 * Real.pi) < getf (update s dt).phases i ∧
      getf (update s dt).phases i < 2 * Real.pi := by
  rw [update_phase_raw s dt hp hi]
  exact fmod_bounds _ (by positivity)

lemma foldl_update_phase_range (dts : List ℝ) :
    ∀ s : Swarmalator, dts ≠ [] → s.phases.length = s.agents →
      ∀ i, i < s.agents →
        -(2 * Real.pi) < getf (dts.foldl update s).phases i ∧
          getf (dts.foldl update s).phases i < 2 * Real.pi := by
  induction dts with
  | nil => intro s hne; exact absurd rfl hne
  | cons d rest ih =>
    intro s _ hp i hi
    rw [List.foldl_cons]
    by_cases hrest : rest = []
    · subst hrest
      exact update_phase_range s d hp hi
    · exact ih (update s d) hrest
        (by rw [update_phases_length, update_agents]; exact hp)
        i (by rw [update_agents]; exact hi)

/-- C8: after any nonempty finite sequence of `update` calls, every
element of `phases` lies strictly within `(-2π, 2π)`: the truncated
(float) remainder by `2π` keeps the sign of its dividend and has
magnitude strictly below `2π`. -/
theorem C8_phase_range (s : Swarmalator) (dts : List ℝ) (hne : dts ≠ [])
    (hp : s.phases.length = s.agents) (i : ℕ) (hi : i < s.agents) :
    -(2 * Real.pi) < getf (dts.foldl update s).phases i ∧
      getf (dts.foldl update s).phases i < 2 * Real.pi :=
  foldl_update_phase_range dts s hne hp i hi

/-- Witness for C8: a single update of the two-agent engine `egTwo`. -/
theorem C8_phase_range_witness :
    (([1] : List ℝ) ≠ [] ∧ egTwo.phases.length = egTwo.agents ∧ 0 < egTwo.agents) ∧
    (-(2 * Real.pi) < getf (([1] : List ℝ).foldl update egTwo).phases 0 ∧
      getf (([1] : List ℝ).foldl update egTwo).phases 0 < 2 * Real.pi) :=
  ⟨⟨by simp, rfl, by decide⟩, C8_phase_range egTwo [1] (by simp) rfl 0 (by decide)⟩

lemma distsToTarget_congr (s1 s2 : Swarmalator) (t : List ℝ)
    (hag : s1.agents = s2.agents) (hpos : s1.positions = s2.positions) :
    distsToTarget s1 t = distsToTarget s2 t := by
  rw [distsToTarget, distsToTarget, hag, hpos]

lemma computeJs_congr (s1 s2 : Swarmalator) (hag : s1.agents = s2.agents)
    (hA : s1.A = s2.A) (hJ : s1.J = s2.J) (htg : s1.target = s2.target)
    (hpos : s1.positions = s2.positions) :
    computeJs s1 = computeJs s2 := by
  cases h2 : s2.target with
  | none =>
    have h1 : s1.target = none := by rw [htg, h2]
    simp only [computeJs, h1, h2, hag, hJ]
  | some t =>
    have h1 : s1.target = some t := by rw [htg, h2]
    simp only [computeJs, h1, h2, hag, hA,
      distsToTarget_congr s1 s2 t hag hpos, hJ]

/-- C9: the velocities and phase deltas are recomputed from scratch.
Two engine states that agree on everything except their `velocities`
and `delta_phases` arrays (both well formed) produce bitwise identical
states from `update`, including the recomputed velocities and phase
deltas. -/
theorem C9_recomputed (s1 s2 : Swarmalator) (dt : ℝ)
    (hag : s1.agents = s2.agents) (hA : s1.A = s2.A) (hB : s1.B = s2.B)
    (hK : s1.K = s2.K) (hJ : s1.J = s2.J) (htg : s1.target = s2.target)
    (hnf : s1.natural_frequencies = s2.natural_frequencies)
    (hch : s1.chiral = s2.chiral) (hph : s1.phases = s2.phases)
    (hpos : s1.positions = s2.positions)
    (hv1 : s1.velocities.length = 2 * s1.agents)
    (hv2 : s2.velocities.length = 2 * s2.agents)
    (hd1 : s1.delta_phases.length = s1.agents)
    (hd2 : s2.delta_phases.length = s2.agents) :
    update s1 dt = update s2 dt := by
  have hJs : computeJs s1 = computeJs s2 := computeJs_congr s1 s2 hag hA hJ htg hpos
  have hS1 : (List.range s1.agents).foldl (agentStep (computeJs s1)) s1
      = (List.range s2.agents).foldl (agentStep (computeJs s2)) s2 := by
    apply Swarmalator.ext
    · rw [foldl_agentStep_agents, foldl_agentStep_agents, hag]
    · rw [foldl_agentStep_A, foldl_agentStep_A, hA]
    · rw [foldl_agentStep_B, foldl_agentStep_B, hB]
    · rw [foldl_agentStep_K, foldl_agentStep_K, hK]
    · rw [foldl_agentStep_J, foldl_agentStep_J, hJ]
    · rw [foldl_agentStep_target, foldl_agentStep_target, htg]
    · rw [foldl_agentStep_nf, foldl_agentStep_nf, hnf]
    · rw [foldl_agentStep_chiral, foldl_agentStep_chiral, hch]
    · apply List.ext_getElem
      · rw [foldl_agentStep_vel_length, foldl_agentStep_vel_length, hv1, hv2, hag]
      · intro k hk1 hk2
        rw [← getf_eq_getElem hk1, ← getf_eq_getElem hk2]
        have hk : k < 2 * s1.agents := by
          rw [foldl_agentStep_vel_length, hv1] at hk1
          exact hk1
        have hi1 : k / 2 < s1.agents := by omega
        have hi2 : k / 2 < s2.agents := by omega
        rcases (by omega : k = 2 * (k / 2) ∨ k = 2 * (k / 2) + 1) with he | he
        · rw [he,
            foldl_agentStep_vel_x (computeJs s1) (k / 2) _ _ (List.nodup_range _)
              (List.mem_range.mpr hi1) (by omega),
            foldl_agentStep_vel_x (computeJs s2) (k / 2) _ _ (List.nodup_range _)
              (List.mem_range.mpr hi2) (by omega)]
          simp only [hag, hpos, hph, hA, hB, hch, hnf, hJs]
        · rw [he,
            foldl_agentStep_vel_y (computeJs s1) (k / 2) _ _ (List.nodup_range _)
              (List.mem_range.mpr hi1) (by omega),
            foldl_agentStep_vel_y (computeJs s2) (k / 2) _ _ (List.nodup_range _)
              (List.mem_range.mpr hi2) (by omega)]
          simp only [hag, hpos, hph, hA, hB, hch, hnf, hJs]
    · rw [foldl_agentStep_phases, foldl_agentStep_phases, hph]
    · apply List.ext_getElem
      · rw [foldl_agentStep_delta_length, foldl_agentStep_delta_length, hd1, hd2, hag]
      · intro k hk1 hk2
        rw [← getf_eq_getElem hk1, ← getf_eq_getElem hk2]
        have hk : k < s1.agents := by
          rw [foldl_agentStep_delta_length, hd1] at hk1
          exact hk1
        rw [foldl_agentStep_delta (computeJs s1) k _ _ (List.nodup_range _)
            (List.mem_range.mpr hk) (by omega),
          foldl_agentStep_delta (computeJs s2) k _ _ (List.nodup_range _)
            (List.mem_range.mpr (hag ▸ hk)) (by omega)]
        simp only [hag, hpos, hph, hK, hch, hnf]
    · rw [foldl_agentStep_positions, foldl_agentStep_positions, hpos]
  show update s1 dt = update s2 dt
  simp only [update]
  rw [hS1]

/-- Witness for C9: `egTwo` versus `egTwoStale`, which differ exactly
in their stale `velocities` and `delta_phases`. -/
theorem C9_recomputed_witness :
    (egTwo.agents = egTwoStale.agents ∧ egTwo.phases = egTwoStale.phases ∧
      egTwo.positions = egTwoStale.positions ∧
      egTwo.velocities.length = 2 * egTwo.agents ∧
      egTwoStale.velocities.length = 2 * egTwoStale.agents ∧
      egTwo.delta_phases.length = egTwo.agents ∧
      egTwoStale.delta_phases.length = egTwoStale.agents ∧
      egTwo.velocities ≠ egTwoStale.velocities) ∧
    update egTwo 1 = update egTwoStale 1 :=
  ⟨⟨rfl, rfl, rfl, rfl, rfl, rfl, rfl, by
      intro h
      have := congrArg (fun l => getf l 0) h
      simp [egTwo, egTwoStale, getf] at this⟩,
    C9_recomputed egTwo egTwoStale 1 rfl rfl rfl rfl rfl rfl rfl rfl rfl rfl
      rfl rfl rfl rfl⟩

/-! ### The corrected claims C4-C7 -/

lemma fmod_seven : fmod 7 (2 * Real.pi) = 7 - 2 * Real.pi := by
  have h2pi : (0:ℝ) < 2 * Real.pi := by positivity
  have hnn : (0:ℝ) ≤ 7 / (2 * Real.pi) := by positivity
  have hfl : ⌊(7:ℝ) / (2 * Real.pi)⌋ = 1 := by
    rw [Int.floor_eq_iff]
    constructor
    · push_cast
      rw [le_div_iff₀ h2pi]
      nlinarith [Real.pi_lt_d2]
    · push_cast
      rw [div_lt_iff₀ h2pi]
      nlinarith [Real.pi_gt_three]
  rw [fmod, rtrunc, if_pos hnn, hfl]
  push_cast
  ring

/-- C4 (amended): `update` with `dt = 0` leaves `positions` unchanged,
and maps each phase to its float remainder mod `2π`; a phase is
unchanged exactly when it already lies strictly inside `(-2π, 2π)` (the
final wrap is applied even when `dt = 0`). -/
theorem C4_dt_zero (s : Swarmalator)
    (hv : s.velocities.length = 2 * s.agents)
    (hd : s.delta_phases.length = s.agents)
    (hp : s.phases.length = s.agents)
    (hx : s.positions.length = 2 * s.agents) :
    (update s 0).positions = s.positions ∧
    (∀ i, i < s.agents →
      getf (update s 0).phases i = fmod (getf s.phases i) (2 * Real.pi)) ∧
    (∀ i, i < s.agents →
      -(2 * Real.pi) < getf s.phases i → getf s.phases i < 2 * Real.pi →
      getf (update s 0).phases i = getf s.phases i) := by
  have hph : ∀ i, i < s.agents →
      getf (update s 0).phases i = fmod (getf s.phases i) (2 * Real.pi) := by
    intro i hi
    rw [update_phase s 0 hp hd hi, mul_zero, add_zero]
  refine ⟨?_, hph, ?_⟩
  · apply List.ext_getElem
    · rw [update_pos_length]
    · intro k hk1 hk2
      rw [← getf_eq_getElem hk1, ← getf_eq_getElem hk2]
      have hk : k < 2 * s.agents := by rw [hx] at hk2; exact hk2
      have hi : k / 2 < s.agents := by omega
      rcases (by omega : k = 2 * (k / 2) ∨ k = 2 * (k / 2) + 1) with he | he
      · rw [he, update_pos_x s 0 hx hv hi, mul_zero, add_zero]
      · rw [he, update_pos_y s 0 hx hv hi, mul_zero, add_zero]
  · intro i hi h1 h2
    rw [hph i hi, fmod_eq_self (by positivity) h1 h2]

/-- Counterexample to C4 as stated: the engine `egPhase7` has phase 7,
and `update` with `dt = 0` changes its phase (to `7 - 2π`), because
the `mod 2π` wrap is applied regardless of `dt`. -/
theorem C4_dt_zero_cex : (update egPhase7 0).phases ≠ egPhase7.phases := by
  intro h
  have h0 : getf (update egPhase7 0).phases 0 = getf egPhase7.phases 0 :=
    congrArg (fun l => getf l 0) h
  rw [update_phase egPhase7 0 rfl rfl (show (0:ℕ) < egPhase7.agents by decide),
    mul_zero, add_zero, show getf egPhase7.phases 0 = 7 from rfl, fmod_seven] at h0
  have := Real.pi_pos
  linarith

/-- Witness for the amended C4 at the one-agent engine `egOne`. -/
theorem C4_dt_zero_witness :
    (egOne.velocities.length = 2 * egOne.agents ∧
      egOne.delta_phases.length = egOne.agents ∧
      egOne.phases.length = egOne.agents ∧
      egOne.positions.length = 2 * egOne.agents) ∧
    ((update egOne 0).positions = egOne.positions ∧
    (∀ i, i < egOne.agents →
      getf (update egOne 0).phases i = fmod (getf egOne.phases i) (2 * Real.pi)) ∧
    (∀ i, i < egOne.agents →
      -(2 * Real.pi) < getf egOne.phases i → getf egOne.phases i < 2 * Real.pi →
      getf (update egOne 0).phases i = getf egOne.phases i)) :=
  ⟨⟨rfl, rfl, rfl, rfl⟩, C4_dt_zero egOne rfl rfl rfl rfl⟩

/-- C5 (amended): in a single-agent engine `update` sets the velocity
to `(0,0)` when chirality is absent and to the chiral rotation term
when present, the phase delta is exactly the natural frequency (no
pairwise term is possible), and the phase advances by exactly
`natural_frequency * dt` up to the final `mod 2π` wrap. -/
theorem C5_single_agent (s : Swarmalator) (dt : ℝ) (h1 : s.agents = 1)
    (hv : s.velocities.length = 2 * s.agents)
    (hd : s.delta_phases.length = s.agents)
    (hp : s.phases.length = s.agents) :
    (s.chiral = none →
      getf (update s dt).velocities 0 = 0 ∧ getf (update s dt).velocities 1 = 0) ∧
    (∀ ch, s.chiral = some ch →
      getf (update s dt).velocities 0
        = getf ch 0 * Real.cos (getf s.phases 0 + Real.pi / 2) ∧
      getf (update s dt).velocities 1
        = getf ch 0 * Real.sin (getf s.phases 0 + Real.pi / 2)) ∧
    getf (update s dt).delta_phases 0 = getf s.natural_frequencies 0 ∧
    getf (update s dt).phases 0
      = fmod (getf s.phases 0 + getf s.natural_frequencies 0 * dt) (2 * Real.pi) := by
  have hi : 0 < s.agents := by omega
  have hothers : others s.agents 0 = [] := by
    rw [h1]
    decide
  have hdelta : deltaPhaseAfter s 0 = getf s.natural_frequencies 0 := by
    rw [deltaPhaseAfter, hothers]
    simp
  have hvx : getf (update s dt).velocities 0 = velBaseX s.chiral s.phases 0 := by
    have h := update_vel_x s dt hv hi
    rw [velAfterX, hothers] at h
    simpa using h
  have hvy : getf (update s dt).velocities 1 = velBaseY s.chiral s.phases 0 := by
    have h := update_vel_y s dt hv hi
    rw [velAfterY, hothers] at h
    simpa using h
  refine ⟨fun hch => ?_, fun ch hch => ?_, ?_, ?_⟩
  · rw [hvx, hvy]
    simp [velBaseX, velBaseY, hch]
  · rw [hvx, hvy]
    simp [velBaseX, velBaseY, hch]
  · rw [update_delta s dt hd hi, hdelta]
  · rw [update_phase s dt hp hd hi, hdelta]

/-- Counterexample to C5 as stated: with natural frequency 1 and
`dt = 7`, the single agent's phase does not advance by exactly
`nf * dt = 7`; the stored phase is `7 - 2π` because of the wrap. -/
theorem C5_single_agent_cex :
    getf (update egNf1 7).phases 0
      ≠ getf egNf1.phases 0 + getf egNf1.natural_frequencies 0 * 7 := by
  have hothers : others egNf1.agents 0 = [] := by decide
  have hdelta : deltaPhaseAfter egNf1 0 = 1 := by
    rw [deltaPhaseAfter, hothers]
    simp [getf, egNf1]
  rw [update_phase egNf1 7 rfl rfl (show (0:ℕ) < egNf1.agents by decide), hdelta,
    show getf egNf1.phases 0 = 0 from rfl,
    show getf egNf1.natural_frequencies 0 = 1 from rfl,
    show (0:ℝ) + 1 * 7 = 7 by norm_num, fmod_seven]
  intro h
  have := Real.pi_pos
  linarith

/-- Witness for the amended C5 at the engine `egNf1`. -/
theorem C5_single_agent_witness :
    (egNf1.agents = 1 ∧ egNf1.velocities.length = 2 * egNf1.agents ∧
      egNf1.delta_phases.length = egNf1.agents ∧
      egNf1.phases.length = egNf1.agents) ∧
    ((egNf1.chiral = none →
      getf (update egNf1 2).velocities 0 = 0 ∧
      getf (update egNf1 2).velocities 1 = 0) ∧
    (∀ ch, egNf1.chiral = some ch →
      getf (update egNf1 2).velocities 0
        = getf ch 0 * Real.cos (getf egNf1.phases 0 + Real.pi / 2) ∧
      getf (update egNf1 2).velocities 1
        = getf ch 0 * Real.sin (getf egNf1.phases 0 + Real.pi / 2)) ∧
    getf (update egNf1 2).delta_phases 0 = getf egNf1.natural_frequencies 0 ∧
    getf (update egNf1 2).phases 0
      = fmod (getf egNf1.phases 0 + getf egNf1.natural_frequencies 0 * 2)
          (2 * Real.pi)) :=
  ⟨⟨rfl, rfl, rfl, rfl⟩, C5_single_agent egNf1 2 rfl rfl rfl rfl⟩

/-- C6 (amended): construction fails with `LengthMismatch` naming the
offending field exactly for the three validated lengths — `positions`
(`≠ 2 * agents`), `phases` and `natural_frequencies` (`≠ agents`) — and
otherwise succeeds with the documented initial state; the lengths of a
present `chirality` or `target` are NOT validated at construction. -/
theorem C6_construction (agents : ℕ) (positions phases nf : List ℝ)
    (K J : ℝ) (chiral target : Option (List ℝ)) :
    (positions.length ≠ agents * 2 →
      Swarmalator.new agents positions phases nf K J chiral target
        = .error (.lengthMismatch "positions")) ∧
    (positions.length = agents * 2 → phases.length ≠ agents →
      Swarmalator.new agents positions phases nf K J chiral target
        = .error (.lengthMismatch "phases")) ∧
    (positions.length = agents * 2 → phases.length = agents → nf.length ≠ agents →
      Swarmalator.new agents positions phases nf K J chiral target
        = .error (.lengthMismatch "natural_frequencies")) ∧
    (positions.length = agents * 2 → phases.length = agents → nf.length = agents →
      Swarmalator.new agents positions phases nf K J chiral target
        = .ok { agents := agents, A := 1, B := 1, K := K, J := J, target := target,
                natural_frequencies := nf, chiral := chiral,
                velocities := List.replicate (agents * 2) 0, phases := phases,
                delta_phases := List.replicate agents 0, positions := positions }) := by
  refine ⟨fun h1 => ?_, fun h1 h2 => ?_, fun h1 h2 h3 => ?_, fun h1 h2 h3 => ?_⟩
  · simp [Swarmalator.new, h1]
  · simp [Swarmalator.new, h1, h2]
  · simp [Swarmalator.new, h1, h2, h3]
  · simp [Swarmalator.new, h1, h2, h3]

/-- Counterexample to C6 as stated: a present chirality array of length
2 with `agents = 1` violates the claimed invariant, yet construction
SUCCEEDS (the constructor never checks `chirality` or `target`
lengths). -/
theorem C6_construction_cex :
    Swarmalator.new 1 [0, 0] [0] [0] 0 0 (some [1, 2]) none
      = .ok { agents := 1, A := 1, B := 1, K := 0, J := 0, target := none,
              natural_frequencies := [0], chiral := some [1, 2],
              velocities := List.replicate 2 0, phases := [0],
              delta_phases := List.replicate 1 0, positions := [0, 0] } ∧
    ([1, 2] : List ℝ).length ≠ 1 := by
  constructor
  · rfl
  · decide

/-- Witness for the amended C6 at a concrete well-formed argument
vector. -/
theorem C6_construction_witness :
    (([0, 0] : List ℝ).length ≠ 1 * 2 →
      Swarmalator.new 1 [0, 0] [0] [0] 0 0 none none
        = .error (.lengthMismatch "positions")) ∧
    (([0, 0] : List ℝ).length = 1 * 2 → ([0] : List ℝ).length ≠ 1 →
      Swarmalator.new 1 [0, 0] [0] [0] 0 0 none none
        = .error (.lengthMismatch "phases")) ∧
    (([0, 0] : List ℝ).length = 1 * 2 → ([0] : List ℝ).length = 1 →
      ([0] : List ℝ).length ≠ 1 →
      Swarmalator.new 1 [0, 0] [0] [0] 0 0 none none
        = .error (.lengthMismatch "natural_frequencies")) ∧
    (([0, 0] : List ℝ).length = 1 * 2 → ([0] : List ℝ).length = 1 →
      ([0] : List ℝ).length = 1 →
      Swarmalator.new 1 [0, 0] [0] [0] 0 0 none none
        = .ok { agents := 1, A := 1, B := 1, K := 0, J := 0, target := none,
                natural_frequencies := [0], chiral := none,
                velocities := List.replicate (1 * 2) 0, phases := [0],
                delta_phases := List.replicate 1 0, positions := [0, 0] }) :=
  C6_construction 1 [0, 0] [0] [0] 0 0 none none

/-- C7 (amended): `set_target`, `set_natural_frequencies` and
`set_phases` validate lengths and fail with `LengthMismatch` (leaving
no mutated state) on violation, succeeding with exactly the named field
replaced otherwise; `set_chiral`, by contrast, performs NO validation
and always replaces the field, even by a present array whose length
differs from `agents`. -/
theorem C7_setters (s : Swarmalator) (v : List ℝ) (c : Option (List ℝ)) :
    (v.length ≠ 2 → s.set_target v = .error (.lengthMismatch "target")) ∧
    (v.length = 2 → s.set_target v = .ok { s with target := some v }) ∧
    (v.length ≠ s.agents →
      s.set_natural_frequencies v = .error (.lengthMismatch "natural_frequencies")) ∧
    (v.length = s.agents →
      s.set_natural_frequencies v = .ok { s with natural_frequencies := v }) ∧
    (v.length ≠ s.agents → s.set_phases v = .error (.lengthMismatch "phases")) ∧
    (v.length = s.agents → s.set_phases v = .ok { s with phases := v }) ∧
    s.set_chiral c = { s with chiral := c } := by
  refine ⟨fun h => ?_, fun h => ?_, fun h => ?_, fun h => ?_, fun h => ?_,
    fun h => ?_, rfl⟩ <;>
    simp [Swarmalator.set_target, Swarmalator.set_natural_frequencies,
      Swarmalator.set_phases, h]

/-- Counterexample to C7 as stated: `set_chiral` with a present array
of invalid length (2, versus `agents = 1`) does not fail — it mutates
the engine, replacing the chirality field. -/
theorem C7_setters_cex :
    egOne.set_chiral (some [1, 2]) ≠ egOne ∧
    (egOne.set_chiral (some [1, 2])).chiral = some [1, 2] ∧
    ([1, 2] : List ℝ).length ≠ egOne.agents := by
  refine ⟨?_, rfl, by decide⟩
  intro h
  have h2 := congrArg Swarmalator.chiral h
  simp [Swarmalator.set_chiral, egOne] at h2

/-- Witness for the amended C7 at `egOne` with a length-2 vector. -/
theorem C7_setters_witness :
    ((([3, 4] : List ℝ).length ≠ 2 →
      egOne.set_target [3, 4] = .error (.lengthMismatch "target")) ∧
    (([3, 4] : List ℝ).length = 2 →
      egOne.set_target [3, 4] = .ok { egOne with target := some [3, 4] }) ∧
    (([3, 4] : List ℝ).length ≠ egOne.agents →
      egOne.set_natural_frequencies [3, 4]
        = .error (.lengthMismatch "natural_frequencies")) ∧
    (([3, 4] : List ℝ).length = egOne.agents →
      egOne.set_natural_frequencies [3, 4]
        = .ok { egOne with natural_frequencies := [3, 4] }) ∧
    (([3, 4] : List ℝ).length ≠ egOne.agents →
      egOne.set_phases [3, 4] = .error (.lengthMismatch "phases")) ∧
    (([3, 4] : List ℝ).length = egOne.agents →
      egOne.set_phases [3, 4] = .ok { egOne with phases := [3, 4] }) ∧
    egOne.set_chiral (some [5]) = { egOne with chiral := some [5] }) :=
  C7_setters egOne [3, 4] (some [5])

end Swarm
